import Mathlib

/-!
Verification development for the jsonc-morph repository: a lossless JSONC
concrete-syntax-tree (CST) editor.  The repository ships the core engine as a
compiled artifact; its strict-mode wrapper (`mod.ts`), tests and documentation
are the sources available here.  The scanner, parser, node graph, mutation
engine, serializer and host value bridge below are therefore modelled from the
specification, while the strict-mode option merging is translated directly
from `src/mod.ts`.
-/

namespace JsoncMorph

/-- Modelled from the spec (§4.1/§4.2): the token kinds the scanner produces:
value literals, structural punctuation, and trivia. -/
inductive TokenKind where
  | lbrace
  | rbrace
  | lbracket
  | rbracket
  | comma
  | colon
  | stringLit
  | numberLit
  | booleanLit
  | nullKeyword
  | wordLit
  | whitespace
  | newline
  | lineComment
  | blockComment
deriving DecidableEq, Repr

/-- Modelled from the spec (§4.1): a scanned token carrying its exact source
bytes. -/
structure Token where
  kind : TokenKind
  text : List Char
deriving DecidableEq, Repr

/-- Modelled from the spec (§4.2): the fixed option set driving the parser
(the resolved form in which every flag is present). -/
structure ParseOptions where
  allowComments : Bool
  allowTrailingCommas : Bool
  allowLooseObjectPropertyNames : Bool
  allowMissingCommas : Bool
  allowSingleQuotedStrings : Bool
  allowHexadecimalNumbers : Bool
  allowUnaryPlusNumbers : Bool
deriving DecidableEq

/-- Modelled from the spec (§6 error surface): the error families raised by
the core. -/
inductive JsoncError where
  | syntaxError (msg : List Char)
  | typeError (msg : List Char)
  | conversionError (msg : List Char)
deriving DecidableEq, Repr

def lbraceChar : Char := '\x7b'

def rbraceChar : Char := '\x7d'

def isWsChar (c : Char) : Bool := c == ' ' || c == '\t'

def isDigitChar (c : Char) : Bool := c.isDigit

def isHexDigitChar (c : Char) : Bool :=
  c.isDigit || ('a' ≤ c && c ≤ 'f') || ('A' ≤ c && c ≤ 'F')

def isWordStartChar (c : Char) : Bool := c.isAlpha || c == '_' || c == '$'

def isWordChar (c : Char) : Bool := isWordStartChar c || c.isDigit

def notNewlineChar (c : Char) : Bool := !(c == '\n' || c == '\r')

def validEscapeChar (c : Char) : Bool :=
  c == '"' || c == '\\' || c == '/' || c == 'b' || c == 'f' || c == 'n' ||
    c == 'r' || c == 't' || c == 'u' || c == '\''

def msgUnterminatedString : List Char := String.toList ("unterminated string literal")

def msgInvalidEscape : List Char := String.toList ("invalid escape sequence")

def msgUnterminatedComment : List Char := String.toList ("unterminated block comment")

def msgInvalidNumber : List Char := String.toList ("invalid number literal")

def msgHexNotAllowed : List Char := String.toList ("hexadecimal numbers are not allowed")

def msgPlusNotAllowed : List Char := String.toList ("unary plus numbers are not allowed")

def msgSingleQuoteNotAllowed : List Char := String.toList ("single quoted strings are not allowed")

def msgUnrecognizedChar : List Char := String.toList ("unrecognized character")

def msgUnexpectedEof : List Char := String.toList ("unexpected end of input")

def msgOutOfFuel : List Char := String.toList ("input exhausted the scanning budget")

/-- Modelled from the spec (§4.1): scan the body of a string literal after the
opening quote `q`, keeping raw escape sequences, failing on an unterminated
string or an invalid escape.  Returns the consumed characters (including the
closing quote) and the rest of the input. -/
def scanStringBody (q : Char) : List Char → Except JsoncError (List Char × List Char)
  | [] => .error (.syntaxError msgUnterminatedString)
  | c :: cs =>
    if c == q then .ok ([c], cs)
    else if c == '\\' then
      match cs with
      | [] => .error (.syntaxError msgUnterminatedString)
      | e :: cs2 =>
        if validEscapeChar e then
          match scanStringBody q cs2 with
          | .ok (body, rest) => .ok (c :: e :: body, rest)
          | .error err => .error err
        else .error (.syntaxError msgInvalidEscape)
    else if c == '\n' || c == '\r' then .error (.syntaxError msgUnterminatedString)
    else
      match scanStringBody q cs with
      | .ok (body, rest) => .ok (c :: body, rest)
      | .error err => .error err

/-- Modelled from the spec (§4.1): scan the body of a block comment after the
opening `/*`, failing when it is unterminated. -/
def scanBlockCommentBody : List Char → Except JsoncError (List Char × List Char)
  | [] => .error (.syntaxError msgUnterminatedComment)
  | '*' :: '/' :: cs => .ok (['*', '/'], cs)
  | c :: cs =>
    match scanBlockCommentBody cs with
    | .ok (body, rest) => .ok (c :: body, rest)
    | .error err => .error err

/-- Modelled from the spec (§4.1): scan the optional exponent part of a number
literal.  Returns the consumed characters (possibly none) and the rest. -/
def scanExponentPart : List Char → Except JsoncError (List Char × List Char)
  | c :: s :: cs =>
    if c == 'e' || c == 'E' then
      if s == '+' || s == '-' then
        let ds := cs.takeWhile isDigitChar
        if ds.isEmpty then .error (.syntaxError msgInvalidNumber)
        else .ok (c :: s :: ds, cs.dropWhile isDigitChar)
      else
        let ds := (s :: cs).takeWhile isDigitChar
        if ds.isEmpty then .error (.syntaxError msgInvalidNumber)
        else .ok (c :: ds, (s :: cs).dropWhile isDigitChar)
    else .ok ([], c :: s :: cs)
  | [c] =>
    if c == 'e' || c == 'E' then .error (.syntaxError msgInvalidNumber)
    else .ok ([], [c])
  | [] => .ok ([], [])

/-- Modelled from the spec (§4.1): scan the digits of a number literal after
an optional sign: decimal with optional fraction and exponent, or an
`0x`-prefixed hexadecimal when that extension is enabled. -/
def scanNumberDigits (opts : ParseOptions) : List Char → Except JsoncError (List Char × List Char)
  | '0' :: 'x' :: cs =>
    if opts.allowHexadecimalNumbers then
      let hs := cs.takeWhile isHexDigitChar
      if hs.isEmpty then .error (.syntaxError msgInvalidNumber)
      else .ok ('0' :: 'x' :: hs, cs.dropWhile isHexDigitChar)
    else .error (.syntaxError msgHexNotAllowed)
  | cs =>
    let ds := cs.takeWhile isDigitChar
    if ds.isEmpty then .error (.syntaxError msgInvalidNumber)
    else
      match cs.dropWhile isDigitChar with
      | '.' :: cs2 =>
        let fs := cs2.takeWhile isDigitChar
        if fs.isEmpty then .error (.syntaxError msgInvalidNumber)
        else
          match scanExponentPart (cs2.dropWhile isDigitChar) with
          | .ok (es, rest) => .ok (ds ++ '.' :: (fs ++ es), rest)
          | .error err => .error err
      | rest1 =>
        match scanExponentPart rest1 with
        | .ok (es, rest) => .ok (ds ++ es, rest)
        | .error err => .error err

def trueChars : List Char := String.toList ("true")

def falseChars : List Char := String.toList ("false")

def nullChars : List Char := String.toList ("null")

/-- Modelled from the spec (§4.1): classify a scanned word: `true`/`false`
become boolean literals, `null` the null keyword, anything else a word. -/
def wordKind (w : List Char) : TokenKind :=
  if w = trueChars then .booleanLit
  else if w = falseChars then .booleanLit
  else if w = nullChars then .nullKeyword
  else .wordLit

/-- Modelled from the spec (§4.1): scan one token beginning at character `c`
with remaining input `cs`, returning the token and the remaining characters. -/
def scanOneCons (opts : ParseOptions) (c : Char) (cs : List Char) :
    Except JsoncError (Token × List Char) :=
    if c == lbraceChar then .ok (⟨.lbrace, [c]⟩, cs)
    else if c == rbraceChar then .ok (⟨.rbrace, [c]⟩, cs)
    else if c == '[' then .ok (⟨.lbracket, [c]⟩, cs)
    else if c == ']' then .ok (⟨.rbracket, [c]⟩, cs)
    else if c == ',' then .ok (⟨.comma, [c]⟩, cs)
    else if c == ':' then .ok (⟨.colon, [c]⟩, cs)
    else if c == '\n' then .ok (⟨.newline, [c]⟩, cs)
    else if c == '\r' then
      match cs with
      | '\n' :: cs2 => .ok (⟨.newline, [c, '\n']⟩, cs2)
      | _ => .error (.syntaxError msgUnrecognizedChar)
    else if isWsChar c then
      .ok (⟨.whitespace, c :: cs.takeWhile isWsChar⟩, cs.dropWhile isWsChar)
    else if c == '/' then
      match cs with
      | '/' :: cs2 =>
        .ok (⟨.lineComment, c :: '/' :: cs2.takeWhile notNewlineChar⟩,
          cs2.dropWhile notNewlineChar)
      | '*' :: cs2 =>
        match scanBlockCommentBody cs2 with
        | .ok (body, rest) => .ok (⟨.blockComment, c :: '*' :: body⟩, rest)
        | .error err => .error err
      | _ => .error (.syntaxError msgUnrecognizedChar)
    else if c == '"' then
      match scanStringBody '"' cs with
      | .ok (body, rest) => .ok (⟨.stringLit, c :: body⟩, rest)
      | .error err => .error err
    else if c == '\'' then
      if opts.allowSingleQuotedStrings then
        match scanStringBody '\'' cs with
        | .ok (body, rest) => .ok (⟨.stringLit, c :: body⟩, rest)
        | .error err => .error err
      else .error (.syntaxError msgSingleQuoteNotAllowed)
    else if c == '-' then
      match scanNumberDigits opts cs with
      | .ok (body, rest) => .ok (⟨.numberLit, c :: body⟩, rest)
      | .error err => .error err
    else if c == '+' then
      if opts.allowUnaryPlusNumbers then
        match scanNumberDigits opts cs with
        | .ok (body, rest) => .ok (⟨.numberLit, c :: body⟩, rest)
        | .error err => .error err
      else .error (.syntaxError msgPlusNotAllowed)
    else if isDigitChar c then
      match scanNumberDigits opts (c :: cs) with
      | .ok (body, rest) => .ok (⟨.numberLit, body⟩, rest)
      | .error err => .error err
    else if isWordStartChar c then
      let w := c :: cs.takeWhile isWordChar
      .ok (⟨wordKind w, w⟩, cs.dropWhile isWordChar)
    else .error (.syntaxError msgUnrecognizedChar)

/-- Modelled from the spec (§4.1): scan one token from a non-empty input. -/
def scanOne (opts : ParseOptions) : List Char → Except JsoncError (Token × List Char)
  | [] => .error (.syntaxError msgUnexpectedEof)
  | c :: cs => scanOneCons opts c cs

/-- Modelled from the spec (§4.1): tokenize the whole input, with fuel
bounding the recursion (one unit per token). -/
def scanTokens : Nat → ParseOptions → List Char → Except JsoncError (List Token)
  | 0, _, _ => .error (.syntaxError msgOutOfFuel)
  | _ + 1, _, [] => .ok []
  | fuel + 1, opts, c :: cs =>
    match scanOne opts (c :: cs) with
    | .error err => .error err
    | .ok (t, rest) =>
      match scanTokens fuel opts rest with
      | .error err => .error err
      | .ok ts => .ok (t :: ts)

/-- Modelled from the spec (§4.1): the scanner entry point. -/
def scan (opts : ParseOptions) (text : List Char) : Except JsoncError (List Token) :=
  scanTokens (text.length + 1) opts text

/-- The concatenated source text of a token list. -/
def tokensText : List Token → List Char
  | [] => []
  | t :: ts => t.text ++ tokensText ts


theorem scanStringBody_append (q : Char) (cs : List Char) : ∀ body rest,
    scanStringBody q cs = .ok (body, rest) → body ++ rest = cs := by
  induction cs using scanStringBody.induct q with
  | case1 =>
    intro body rest h
    rw [scanStringBody.eq_def] at h
    exact Except.noConfusion h
  | case2 e cs2 hq =>
    intro body rest h
    rw [scanStringBody.eq_def] at h
    dsimp only at h
    simp [hq] at h
    obtain ⟨hb, hr⟩ := h
    subst hb; subst hr
    simp
  | case3 e hq hbs =>
    intro body rest h
    rw [scanStringBody.eq_def] at h
    dsimp only at h
    simp [hq, hbs] at h
  | case4 e hq hbs e1 cs2 hval b0 r0 hrec ih =>
    intro body rest h
    rw [scanStringBody.eq_def] at h
    dsimp only at h
    simp [hq, hbs, hval, hrec] at h
    obtain ⟨hb, hr⟩ := h
    subst hb; subst hr
    have hx := ih b0 r0 hrec
    simp [hx]
  | case5 e hq hbs e1 cs2 hval err herr ih =>
    intro body rest h
    rw [scanStringBody.eq_def] at h
    dsimp only at h
    simp [hq, hbs, hval, herr] at h
  | case6 e hq hbs e1 cs2 hval =>
    intro body rest h
    rw [scanStringBody.eq_def] at h
    dsimp only at h
    simp [hq, hbs, hval] at h
  | case7 e cs2 hq hbs hnl =>
    intro body rest h
    rw [scanStringBody.eq_def] at h
    dsimp only at h
    simp [hq, hbs, hnl] at h
  | case8 e cs2 hq hbs hnl b0 r0 hrec ih =>
    intro body rest h
    rw [scanStringBody.eq_def] at h
    dsimp only at h
    simp [hq, hbs, hnl, hrec] at h
    obtain ⟨hb, hr⟩ := h
    subst hb; subst hr
    have hx := ih b0 r0 hrec
    simp [hx]
  | case9 e cs2 hq hbs hnl err herr ih =>
    intro body rest h
    rw [scanStringBody.eq_def] at h
    dsimp only at h
    simp [hq, hbs, hnl, herr] at h


theorem scanBlockCommentBody_append : ∀ (cs body rest : List Char),
    scanBlockCommentBody cs = .ok (body, rest) → body ++ rest = cs := by
  intro cs
  induction cs using scanBlockCommentBody.induct with
  | case1 =>
    intro body rest h
    rw [scanBlockCommentBody.eq_1] at h
    exact Except.noConfusion h
  | case2 cs2 =>
    intro body rest h
    rw [scanBlockCommentBody.eq_2] at h
    injection h with h2
    injection h2 with hb hr
    subst hb; subst hr
    simp
  | case3 c cs2 hne b0 r0 hrec ih =>
    intro body rest h
    rw [scanBlockCommentBody.eq_3 c cs2 hne, hrec] at h
    dsimp only at h
    injection h with h2
    injection h2 with hb hr
    subst hb; subst hr
    have hx := ih b0 r0 hrec
    simp [hx]
  | case4 c cs2 hne err herr ih =>
    intro body rest h
    rw [scanBlockCommentBody.eq_3 c cs2 hne, herr] at h
    exact Except.noConfusion h

theorem scanExponentPart_append : ∀ (cs es rest : List Char),
    scanExponentPart cs = .ok (es, rest) → es ++ rest = cs := by
  intro cs es rest h
  rcases cs with _ | ⟨c, _ | ⟨s, cs⟩⟩
  · rw [scanExponentPart.eq_def] at h
    dsimp only at h
    injection h with h2
    injection h2 with hb hr
    subst hb; subst hr
    simp
  · rw [scanExponentPart.eq_def] at h
    dsimp only at h
    split at h
    · exact Except.noConfusion h
    · injection h with h2
      injection h2 with hb hr
      subst hb; subst hr
      simp
  · rw [scanExponentPart.eq_def] at h
    dsimp only at h
    split at h
    · split at h
      · split at h
        · exact Except.noConfusion h
        · injection h with h2
          injection h2 with hb hr
          subst hb; subst hr
          simp [List.takeWhile_append_dropWhile]
      · split at h
        · exact Except.noConfusion h
        · injection h with h2
          injection h2 with hb hr
          subst hb; subst hr
          simp [List.takeWhile_append_dropWhile]
    · injection h with h2
      injection h2 with hb hr
      subst hb; subst hr
      simp

theorem scanNumberDigits_append (opts : ParseOptions) : ∀ (cs body rest : List Char),
    scanNumberDigits opts cs = .ok (body, rest) → body ++ rest = cs := by
  intro cs body rest h
  by_cases hx : ∃ cs1, cs = '0' :: 'x' :: cs1
  · obtain ⟨cs1, rfl⟩ := hx
    rw [scanNumberDigits.eq_1] at h
    split at h
    · dsimp only at h
      split at h
      · exact Except.noConfusion h
      · injection h with h2
        injection h2 with hb hr
        subst hb; subst hr
        simp [List.takeWhile_append_dropWhile]
    · exact Except.noConfusion h
  · have hne : ∀ cs1, cs = '0' :: 'x' :: cs1 → False := fun cs1 hc => hx ⟨cs1, hc⟩
    rw [scanNumberDigits.eq_2 opts cs hne] at h
    split at h
    · exact Except.noConfusion h
    · split at h
      · rename_i cs2 heq
        dsimp only at h
        split at h
        · exact Except.noConfusion h
        · split at h
          · rename_i es r0 hexp
            injection h with h2
            injection h2 with hb hr
            subst hb; subst hr
            have he := scanExponentPart_append _ _ _ hexp
            have hstep :
                (List.takeWhile isDigitChar cs ++ '.' :: (List.takeWhile isDigitChar cs2 ++ es)) ++ r0
                  = List.takeWhile isDigitChar cs ++
                      '.' :: (List.takeWhile isDigitChar cs2 ++ (es ++ r0)) := by
              simp
            rw [hstep, he, List.takeWhile_append_dropWhile, ← heq,
              List.takeWhile_append_dropWhile]
          · exact Except.noConfusion h
      · split at h
        · rename_i es r0 hexp
          injection h with h2
          injection h2 with hb hr
          subst hb; subst hr
          have he := scanExponentPart_append _ _ _ hexp
          rw [List.append_assoc, he, List.takeWhile_append_dropWhile]
        · exact Except.noConfusion h

theorem scanOneCons_append (opts : ParseOptions) (c : Char) (cs2 : List Char)
    (t : Token) (rest : List Char)
    (h : scanOneCons opts c cs2 = .ok (t, rest)) : t.text ++ rest = c :: cs2 := by
  rw [scanOneCons.eq_def] at h
  by_cases hc1 : (c == lbraceChar) = true
  · rw [if_pos hc1] at h
    injection h with h2
    injection h2 with hb hr
    subst hb
    subst hr
    simp
  · rw [if_neg hc1] at h
    by_cases hc2 : (c == rbraceChar) = true
    · rw [if_pos hc2] at h
      injection h with h2
      injection h2 with hb hr
      subst hb
      subst hr
      simp
    · rw [if_neg hc2] at h
      by_cases hc3 : (c == '[') = true
      · rw [if_pos hc3] at h
        injection h with h2
        injection h2 with hb hr
        subst hb
        subst hr
        simp
      · rw [if_neg hc3] at h
        by_cases hc4 : (c == ']') = true
        · rw [if_pos hc4] at h
          injection h with h2
          injection h2 with hb hr
          subst hb
          subst hr
          simp
        · rw [if_neg hc4] at h
          by_cases hc5 : (c == ',') = true
          · rw [if_pos hc5] at h
            injection h with h2
            injection h2 with hb hr
            subst hb
            subst hr
            simp
          · rw [if_neg hc5] at h
            by_cases hc6 : (c == ':') = true
            · rw [if_pos hc6] at h
              injection h with h2
              injection h2 with hb hr
              subst hb
              subst hr
              simp
            · rw [if_neg hc6] at h
              by_cases hc7 : (c == '\n') = true
              · rw [if_pos hc7] at h
                injection h with h2
                injection h2 with hb hr
                subst hb
                subst hr
                simp
              · rw [if_neg hc7] at h
                by_cases hc8 : (c == '\r') = true
                · rw [if_pos hc8] at h
                  split at h
                  · injection h with h2
                    injection h2 with hb hr
                    subst hb
                    subst hr
                    simp
                  · exact Except.noConfusion h
                · rw [if_neg hc8] at h
                  by_cases hc9 : isWsChar c = true
                  · rw [if_pos hc9] at h
                    injection h with h2
                    injection h2 with hb hr
                    subst hb
                    subst hr
                    simp [List.takeWhile_append_dropWhile]
                  · rw [if_neg hc9] at h
                    by_cases hc10 : (c == '/') = true
                    · rw [if_pos hc10] at h
                      split at h
                      · injection h with h2
                        injection h2 with hb hr
                        subst hb
                        subst hr
                        simp [List.takeWhile_append_dropWhile]
                      · split at h
                        · rename_i hrec
                          injection h with h2
                          injection h2 with hb hr
                          subst hb
                          subst hr
                          have hx := scanBlockCommentBody_append _ _ _ hrec
                          simp [hx]
                        · exact Except.noConfusion h
                      · exact Except.noConfusion h
                    · rw [if_neg hc10] at h
                      by_cases hc11 : (c == '\"') = true
                      · rw [if_pos hc11] at h
                        split at h
                        · rename_i hrec
                          injection h with h2
                          injection h2 with hb hr
                          subst hb
                          subst hr
                          have hx := scanStringBody_append _ _ _ _ hrec
                          simp [hx]
                        · exact Except.noConfusion h
                      · rw [if_neg hc11] at h
                        by_cases hc12 : (c == '\'') = true
                        · rw [if_pos hc12] at h
                          by_cases hq : opts.allowSingleQuotedStrings = true
                          · rw [if_pos hq] at h
                            split at h
                            · rename_i hrec
                              injection h with h2
                              injection h2 with hb hr
                              subst hb
                              subst hr
                              have hx := scanStringBody_append _ _ _ _ hrec
                              simp [hx]
                            · exact Except.noConfusion h
                          · rw [if_neg hq] at h
                            exact Except.noConfusion h
                        · rw [if_neg hc12] at h
                          by_cases hc13 : (c == '-') = true
                          · rw [if_pos hc13] at h
                            split at h
                            · rename_i hrec
                              injection h with h2
                              injection h2 with hb hr
                              subst hb
                              subst hr
                              have hx := scanNumberDigits_append _ _ _ _ hrec
                              simp [hx]
                            · exact Except.noConfusion h
                          · rw [if_neg hc13] at h
                            by_cases hc14 : (c == '+') = true
                            · rw [if_pos hc14] at h
                              by_cases hq : opts.allowUnaryPlusNumbers = true
                              · rw [if_pos hq] at h
                                split at h
                                · rename_i hrec
                                  injection h with h2
                                  injection h2 with hb hr
                                  subst hb
                                  subst hr
                                  have hx := scanNumberDigits_append _ _ _ _ hrec
                                  simp [hx]
                                · exact Except.noConfusion h
                              · rw [if_neg hq] at h
                                exact Except.noConfusion h
                            · rw [if_neg hc14] at h
                              by_cases hc15 : isDigitChar c = true
                              · rw [if_pos hc15] at h
                                split at h
                                · rename_i hrec
                                  injection h with h2
                                  injection h2 with hb hr
                                  subst hb
                                  subst hr
                                  have hx := scanNumberDigits_append _ _ _ _ hrec
                                  exact hx
                                · exact Except.noConfusion h
                              · rw [if_neg hc15] at h
                                by_cases hc16 : isWordStartChar c = true
                                · rw [if_pos hc16] at h
                                  dsimp only at h
                                  injection h with h2
                                  injection h2 with hb hr
                                  subst hb
                                  subst hr
                                  simp [List.takeWhile_append_dropWhile]
                                · rw [if_neg hc16] at h
                                  exact Except.noConfusion h

theorem scanOne_append (opts : ParseOptions) : ∀ (cs : List Char) (t : Token) (rest : List Char),
    scanOne opts cs = .ok (t, rest) → t.text ++ rest = cs := by
  intro cs t rest h
  match cs with
  | [] =>
    rw [scanOne.eq_def] at h
    exact Except.noConfusion h
  | c :: cs2 =>
    rw [scanOne.eq_def] at h
    exact scanOneCons_append opts c cs2 t rest h

theorem scanTokens_text (opts : ParseOptions) : ∀ (fuel : Nat) (cs : List Char) (ts : List Token),
    scanTokens fuel opts cs = .ok ts → tokensText ts = cs := by
  intro fuel
  induction fuel with
  | zero =>
    intro cs ts h
    simp [scanTokens] at h
  | succ fuel ih =>
    intro cs ts h
    match cs with
    | [] =>
      simp [scanTokens] at h
      subst h
      rfl
    | c :: cs2 =>
      rw [scanTokens.eq_def] at h
      dsimp only at h
      split at h
      · exact Except.noConfusion h
      · rename_i t0 rest0 hone
        split at h
        · exact Except.noConfusion h
        · rename_i ts0 hts
          injection h with h2
          subst h2
          have ha := scanOne_append opts _ _ _ hone
          have hb := ih _ _ hts
          show t0.text ++ tokensText ts0 = c :: cs2
          rw [hb, ha]

theorem scan_text (opts : ParseOptions) (text : List Char) (ts : List Token)
    (h : scan opts text = .ok ts) : tokensText ts = text :=
  scanTokens_text opts _ text ts h


/-- Modelled from the spec (§3): a CST node is a container (`Object`, `Array`,
`ObjectProperty`) owning an ordered child list in which significant nodes and
trivia are interleaved in source order, or a leaf carrying one token
(value literal, structural punctuation, or trivia). -/
inductive JsonNode where
  | object (children : List JsonNode)
  | array (children : List JsonNode)
  | prop (children : List JsonNode)
  | leaf (t : Token)

/-- Modelled from the spec (§3): the root container of a parsed document. -/
structure RootNode where
  children : List JsonNode

mutual

/-- Modelled from the spec (§4.5): the serializer: concatenate every
descendant leaf's text. -/
def nodeText : JsonNode → List Char
  | .leaf t => t.text
  | .object cs => nodesText cs
  | .array cs => nodesText cs
  | .prop cs => nodesText cs

def nodesText : List JsonNode → List Char
  | [] => []
  | n :: ns => nodeText n ++ nodesText ns

end

/-- Modelled from the spec (§4.5): `toString()` on the root reproduces the
file from the leaves' text. -/
def RootNode.serialize (r : RootNode) : List Char := nodesText r.children

mutual

/-- The tokens of a node's leaves in depth-first left-to-right order. -/
def nodeTokens : JsonNode → List Token
  | .leaf t => [t]
  | .object cs => nodesTokens cs
  | .array cs => nodesTokens cs
  | .prop cs => nodesTokens cs

def nodesTokens : List JsonNode → List Token
  | [] => []
  | n :: ns => nodeTokens n ++ nodesTokens ns

end

/-- Modelled from the spec (glossary): trivia tokens are whitespace, newlines
and comments. -/
def isTriviaToken (t : Token) : Bool :=
  match t.kind with
  | .whitespace => true
  | .newline => true
  | .lineComment => true
  | .blockComment => true
  | _ => false

def isCommentToken (t : Token) : Bool :=
  match t.kind with
  | .lineComment => true
  | .blockComment => true
  | _ => false

def msgCommentsNotAllowed : List Char := String.toList ("comments are not allowed")

def msgExpectedValue : List Char := String.toList ("expected a value")

def msgExpectedColon : List Char := String.toList ("expected a colon")

def msgExpectedPropName : List Char := String.toList ("expected a property name")

def msgTrailingCommaNotAllowed : List Char := String.toList ("trailing commas are not allowed")

def msgMissingCommaNotAllowed : List Char := String.toList ("expected a comma")

def msgUnexpectedToken : List Char := String.toList ("unexpected token after the root value")

/-- Modelled from the spec (§4.2): consume a run of leading trivia tokens,
rejecting comment tokens when `allowComments` is off. -/
def parseTrivia (opts : ParseOptions) : List Token → Except JsoncError (List JsonNode × List Token)
  | [] => .ok ([], [])
  | t :: ts =>
    if isTriviaToken t then
      if isCommentToken t && !opts.allowComments then
        .error (.syntaxError msgCommentsNotAllowed)
      else
        match parseTrivia opts ts with
        | .ok (ns, rest) => .ok (.leaf t :: ns, rest)
        | .error err => .error err
    else .ok ([], t :: ts)

/-- Modelled from the spec (§4.2): whether the token may open a property name
(string literal always, word only under loose property names). -/
def isPropNameToken (opts : ParseOptions) (t : Token) : Bool :=
  t.kind == .stringLit || (t.kind == .wordLit && opts.allowLooseObjectPropertyNames)

mutual

/-- Modelled from the spec (§4.2): recursive-descent parsing of one value,
attaching every scanned token (trivia included) as a child of the enclosing
container in source order.  The fuel bounds the recursion depth. -/
def parseValue : Nat → ParseOptions → List Token → Except JsoncError (JsonNode × List Token)
  | 0, _, _ => .error (.syntaxError msgOutOfFuel)
  | _ + 1, _, [] => .error (.syntaxError msgExpectedValue)
  | fuel + 1, opts, t :: ts =>
    match t.kind with
    | .lbrace =>
      match parseTrivia opts ts with
      | .error err => .error err
      | .ok (tv, ts2) =>
        match ts2 with
        | [] => .error (.syntaxError msgUnexpectedEof)
        | r :: ts3 =>
          if r.kind == .rbrace then .ok (.object (.leaf t :: (tv ++ [.leaf r])), ts3)
          else
            match parseObjectItems fuel opts ts2 with
            | .error err => .error err
            | .ok (items, ts4) => .ok (.object (.leaf t :: (tv ++ items)), ts4)
    | .lbracket =>
      match parseTrivia opts ts with
      | .error err => .error err
      | .ok (tv, ts2) =>
        match ts2 with
        | [] => .error (.syntaxError msgUnexpectedEof)
        | r :: ts3 =>
          if r.kind == .rbracket then .ok (.array (.leaf t :: (tv ++ [.leaf r])), ts3)
          else
            match parseArrayItems fuel opts ts2 with
            | .error err => .error err
            | .ok (items, ts4) => .ok (.array (.leaf t :: (tv ++ items)), ts4)
    | .stringLit => .ok (.leaf t, ts)
    | .numberLit => .ok (.leaf t, ts)
    | .booleanLit => .ok (.leaf t, ts)
    | .nullKeyword => .ok (.leaf t, ts)
    | _ => .error (.syntaxError msgExpectedValue)

/-- Modelled from the spec (§4.2): parse the members of an object after the
opening brace and its leading trivia: one property, then either the closing
brace, a comma (with optional trailing-comma close), or — only under
`allowMissingCommas` — the next property directly. -/
def parseObjectItems : Nat → ParseOptions → List Token → Except JsoncError (List JsonNode × List Token)
  | 0, _, _ => .error (.syntaxError msgOutOfFuel)
  | fuel + 1, opts, ts =>
    match parseProp fuel opts ts with
    | .error err => .error err
    | .ok (p, ts1) =>
      match parseTrivia opts ts1 with
      | .error err => .error err
      | .ok (tv, ts2) =>
        match ts2 with
        | [] => .error (.syntaxError msgUnexpectedEof)
        | u :: ts3 =>
          if u.kind == .rbrace then .ok (p :: (tv ++ [.leaf u]), ts3)
          else if u.kind == .comma then
            match parseTrivia opts ts3 with
            | .error err => .error err
            | .ok (tv2, ts4) =>
              match ts4 with
              | [] => .error (.syntaxError msgUnexpectedEof)
              | v :: _ =>
                if v.kind == .rbrace then
                  if opts.allowTrailingCommas then
                    match ts4 with
                    | [] => .error (.syntaxError msgUnexpectedEof)
                    | v2 :: ts5 => .ok (p :: (tv ++ .leaf u :: (tv2 ++ [.leaf v2])), ts5)
                  else .error (.syntaxError msgTrailingCommaNotAllowed)
                else
                  match parseObjectItems fuel opts ts4 with
                  | .error err => .error err
                  | .ok (items, ts6) => .ok (p :: (tv ++ .leaf u :: (tv2 ++ items)), ts6)
          else
            if opts.allowMissingCommas then
              match parseObjectItems fuel opts ts2 with
              | .error err => .error err
              | .ok (items, ts6) => .ok (p :: (tv ++ items), ts6)
            else .error (.syntaxError msgMissingCommaNotAllowed)

/-- Modelled from the spec (§4.2): parse one object property: name, trivia,
colon, trivia, value; all tokens become children of the property node. -/
def parseProp : Nat → ParseOptions → List Token → Except JsoncError (JsonNode × List Token)
  | 0, _, _ => .error (.syntaxError msgOutOfFuel)
  | _ + 1, _, [] => .error (.syntaxError msgExpectedPropName)
  | fuel + 1, opts, n :: ts =>
    if isPropNameToken opts n then
      match parseTrivia opts ts with
      | .error err => .error err
      | .ok (tv1, ts2) =>
        match ts2 with
        | [] => .error (.syntaxError msgExpectedColon)
        | cTok :: ts3 =>
          if cTok.kind == .colon then
            match parseTrivia opts ts3 with
            | .error err => .error err
            | .ok (tv2, ts4) =>
              match parseValue fuel opts ts4 with
              | .error err => .error err
              | .ok (v, ts5) =>
                .ok (.prop (.leaf n :: (tv1 ++ .leaf cTok :: (tv2 ++ [v]))), ts5)
          else .error (.syntaxError msgExpectedColon)
    else .error (.syntaxError msgExpectedPropName)

/-- Modelled from the spec (§4.2): parse the elements of an array after the
opening bracket and its leading trivia. -/
def parseArrayItems : Nat → ParseOptions → List Token → Except JsoncError (List JsonNode × List Token)
  | 0, _, _ => .error (.syntaxError msgOutOfFuel)
  | fuel + 1, opts, ts =>
    match parseValue fuel opts ts with
    | .error err => .error err
    | .ok (v, ts1) =>
      match parseTrivia opts ts1 with
      | .error err => .error err
      | .ok (tv, ts2) =>
        match ts2 with
        | [] => .error (.syntaxError msgUnexpectedEof)
        | u :: ts3 =>
          if u.kind == .rbracket then .ok (v :: (tv ++ [.leaf u]), ts3)
          else if u.kind == .comma then
            match parseTrivia opts ts3 with
            | .error err => .error err
            | .ok (tv2, ts4) =>
              match ts4 with
              | [] => .error (.syntaxError msgUnexpectedEof)
              | w :: _ =>
                if w.kind == .rbracket then
                  if opts.allowTrailingCommas then
                    match ts4 with
                    | [] => .error (.syntaxError msgUnexpectedEof)
                    | w2 :: ts5 => .ok (v :: (tv ++ .leaf u :: (tv2 ++ [.leaf w2])), ts5)
                  else .error (.syntaxError msgTrailingCommaNotAllowed)
                else
                  match parseArrayItems fuel opts ts4 with
                  | .error err => .error err
                  | .ok (items, ts6) => .ok (v :: (tv ++ .leaf u :: (tv2 ++ items)), ts6)
          else
            if opts.allowMissingCommas then
              match parseArrayItems fuel opts ts2 with
              | .error err => .error err
              | .ok (items, ts6) => .ok (v :: (tv ++ items), ts6)
            else .error (.syntaxError msgMissingCommaNotAllowed)

end

/-- Modelled from the spec (§4.2): parse a whole document: optional leading
trivia, an optional root value, optional trailing trivia, then end of input. -/
def parseRoot (opts : ParseOptions) (ts : List Token) : Except JsoncError RootNode :=
  match parseTrivia opts ts with
  | .error err => .error err
  | .ok (tv1, ts1) =>
    match ts1 with
    | [] => .ok ⟨tv1⟩
    | _ =>
      match parseValue (3 * ts.length + 3) opts ts1 with
      | .error err => .error err
      | .ok (v, ts2) =>
        match parseTrivia opts ts2 with
        | .error err => .error err
        | .ok (tv2, ts3) =>
          match ts3 with
          | [] => .ok ⟨tv1 ++ v :: tv2⟩
          | _ => .error (.syntaxError msgUnexpectedToken)

/-- Modelled from the spec (§2/§4.2): the core parse pipeline: Scanner then
Parser, producing the lossless CST. -/
def parse (text : List Char) (opts : ParseOptions) : Except JsoncError RootNode :=
  match scan opts text with
  | .error err => .error err
  | .ok ts => parseRoot opts ts


theorem tokensText_append : ∀ (a b : List Token),
    tokensText (a ++ b) = tokensText a ++ tokensText b := by
  intro a b
  induction a with
  | nil => simp [tokensText]
  | cons t ts ih => simp [tokensText, ih]

theorem nodesTokens_append : ∀ (a b : List JsonNode),
    nodesTokens (a ++ b) = nodesTokens a ++ nodesTokens b := by
  intro a b
  induction a with
  | nil => simp [nodesTokens]
  | cons n ns ih => simp [nodesTokens, ih]

mutual

theorem nodeText_tokens : ∀ (n : JsonNode), nodeText n = tokensText (nodeTokens n)
  | .leaf t => by simp [nodeText, nodeTokens, tokensText]
  | .object cs => by
    have h := nodesText_tokens cs
    simp [nodeText, nodeTokens, h]
  | .array cs => by
    have h := nodesText_tokens cs
    simp [nodeText, nodeTokens, h]
  | .prop cs => by
    have h := nodesText_tokens cs
    simp [nodeText, nodeTokens, h]

theorem nodesText_tokens : ∀ (ns : List JsonNode), nodesText ns = tokensText (nodesTokens ns)
  | [] => rfl
  | n :: ns => by
    have h1 := nodeText_tokens n
    have h2 := nodesText_tokens ns
    simp [nodesText, nodesTokens, tokensText_append, h1, h2]

end

theorem parseTrivia_tokens (opts : ParseOptions) : ∀ (ts : List Token) (ns : List JsonNode)
    (rest : List Token), parseTrivia opts ts = .ok (ns, rest) → nodesTokens ns ++ rest = ts := by
  intro ts
  induction ts with
  | nil =>
    intro ns rest h
    simp [parseTrivia] at h
    obtain ⟨h1, h2⟩ := h
    subst h1; subst h2
    rfl
  | cons t ts ih =>
    intro ns rest h
    rw [parseTrivia.eq_def] at h
    dsimp only at h
    split at h
    · split at h
      · exact Except.noConfusion h
      · split at h
        · rename_i hrec
          injection h with h2
          injection h2 with hb hr
          subst hb; subst hr
          have h1 := ih _ _ hrec
          simp [nodesTokens, nodeTokens, h1]
        · exact Except.noConfusion h
    · injection h with h2
      injection h2 with hb hr
      subst hb; subst hr
      simp [nodesTokens]


mutual

theorem parseValue_tokens : ∀ (fuel : Nat) (opts : ParseOptions) (ts : List Token)
    (v : JsonNode) (rest : List Token),
    parseValue fuel opts ts = .ok (v, rest) → nodeTokens v ++ rest = ts
  | 0, opts, ts, v, rest, h => by simp [parseValue] at h
  | fuel + 1, opts, [], v, rest, h => by simp [parseValue] at h
  | fuel + 1, opts, t :: ts, v, rest, h => by
    rw [parseValue.eq_3] at h
    cases hk : t.kind <;> rw [hk] at h <;> dsimp only at h
    case lbrace =>
      split at h
      · exact Except.noConfusion h
      · rename_i tv ts2 htv
        have h1 := parseTrivia_tokens opts _ _ _ htv
        split at h
        · exact Except.noConfusion h
        · rename_i r ts3
          split at h
          · injection h with h2
            injection h2 with hb hr
            subst hb; subst hr
            simp [nodeTokens, nodesTokens, nodesTokens_append, h1]
          · split at h
            · exact Except.noConfusion h
            · rename_i items ts4 hitems
              injection h with h2
              injection h2 with hb hr
              subst hb; subst hr
              have h2 := parseObjectItems_tokens fuel opts _ _ _ hitems
              simp [nodeTokens, nodesTokens, nodesTokens_append, h2, h1]
    case lbracket =>
      split at h
      · exact Except.noConfusion h
      · rename_i tv ts2 htv
        have h1 := parseTrivia_tokens opts _ _ _ htv
        split at h
        · exact Except.noConfusion h
        · rename_i r ts3
          split at h
          · injection h with h2
            injection h2 with hb hr
            subst hb; subst hr
            simp [nodeTokens, nodesTokens, nodesTokens_append, h1]
          · split at h
            · exact Except.noConfusion h
            · rename_i items ts4 hitems
              injection h with h2
              injection h2 with hb hr
              subst hb; subst hr
              have h2 := parseArrayItems_tokens fuel opts _ _ _ hitems
              simp [nodeTokens, nodesTokens, nodesTokens_append, h2, h1]
    case stringLit =>
      injection h with h2
      injection h2 with hb hr
      subst hb; subst hr
      simp [nodeTokens]
    case numberLit =>
      injection h with h2
      injection h2 with hb hr
      subst hb; subst hr
      simp [nodeTokens]
    case booleanLit =>
      injection h with h2
      injection h2 with hb hr
      subst hb; subst hr
      simp [nodeTokens]
    case nullKeyword =>
      injection h with h2
      injection h2 with hb hr
      subst hb; subst hr
      simp [nodeTokens]
    case rbrace => exact Except.noConfusion h
    case rbracket => exact Except.noConfusion h
    case comma => exact Except.noConfusion h
    case colon => exact Except.noConfusion h
    case wordLit => exact Except.noConfusion h
    case whitespace => exact Except.noConfusion h
    case newline => exact Except.noConfusion h
    case lineComment => exact Except.noConfusion h
    case blockComment => exact Except.noConfusion h

theorem parseObjectItems_tokens : ∀ (fuel : Nat) (opts : ParseOptions) (ts : List Token)
    (ns : List JsonNode) (rest : List Token),
    parseObjectItems fuel opts ts = .ok (ns, rest) → nodesTokens ns ++ rest = ts
  | 0, opts, ts, ns, rest, h => by simp [parseObjectItems] at h
  | fuel + 1, opts, ts, ns, rest, h => by
    rw [parseObjectItems.eq_2] at h
    split at h
    · exact Except.noConfusion h
    · rename_i p ts1 hp
      have h1 := parseProp_tokens fuel opts _ _ _ hp
      split at h
      · exact Except.noConfusion h
      · rename_i tv ts2 htv
        have h2 := parseTrivia_tokens opts _ _ _ htv
        split at h
        · exact Except.noConfusion h
        · rename_i u ts3
          split at h
          · injection h with h2x
            injection h2x with hb hr
            subst hb; subst hr
            simp [nodesTokens, nodeTokens, nodesTokens_append, List.append_assoc, h2, h1]
          · split at h
            · split at h
              · exact Except.noConfusion h
              · rename_i tv2 ts4 htv2
                have h3 := parseTrivia_tokens opts _ _ _ htv2
                split at h
                · exact Except.noConfusion h
                · rename_i w tsw
                  split at h
                  · split at h
                    · try dsimp only at h
                      injection h with h2x
                      injection h2x with hb hr
                      subst hb; subst hr
                      simp [nodesTokens, nodeTokens, nodesTokens_append, List.append_assoc,
                        h3, h2, h1]
                    · exact Except.noConfusion h
                  · split at h
                    · exact Except.noConfusion h
                    · rename_i items ts6 hit
                      injection h with h2x
                      injection h2x with hb hr
                      subst hb; subst hr
                      have h4 := parseObjectItems_tokens fuel opts _ _ _ hit
                      simp [nodesTokens, nodeTokens, nodesTokens_append, List.append_assoc,
                        h4, h3, h2, h1]
            · split at h
              · split at h
                · exact Except.noConfusion h
                · rename_i items ts6 hit
                  injection h with h2x
                  injection h2x with hb hr
                  subst hb; subst hr
                  have h4 := parseObjectItems_tokens fuel opts _ _ _ hit
                  simp [nodesTokens, nodeTokens, nodesTokens_append, List.append_assoc,
                    h4, h2, h1]
              · exact Except.noConfusion h

theorem parseProp_tokens : ∀ (fuel : Nat) (opts : ParseOptions) (ts : List Token)
    (p : JsonNode) (rest : List Token),
    parseProp fuel opts ts = .ok (p, rest) → nodeTokens p ++ rest = ts
  | 0, opts, ts, p, rest, h => by simp [parseProp] at h
  | fuel + 1, opts, [], p, rest, h => by simp [parseProp] at h
  | fuel + 1, opts, n :: ts, p, rest, h => by
    rw [parseProp.eq_3] at h
    split at h
    · split at h
      · exact Except.noConfusion h
      · rename_i tv1 ts2 htv1
        have h1 := parseTrivia_tokens opts _ _ _ htv1
        split at h
        · exact Except.noConfusion h
        · rename_i cTok ts3
          split at h
          · split at h
            · exact Except.noConfusion h
            · rename_i tv2 ts4 htv2
              have h2 := parseTrivia_tokens opts _ _ _ htv2
              split at h
              · exact Except.noConfusion h
              · rename_i v0 ts5 hv
                injection h with h2x
                injection h2x with hb hr
                subst hb; subst hr
                have h3 := parseValue_tokens fuel opts _ _ _ hv
                simp [nodeTokens, nodesTokens, nodesTokens_append, List.append_assoc,
                  h3, h2, h1]
          · exact Except.noConfusion h
    · exact Except.noConfusion h

theorem parseArrayItems_tokens : ∀ (fuel : Nat) (opts : ParseOptions) (ts : List Token)
    (ns : List JsonNode) (rest : List Token),
    parseArrayItems fuel opts ts = .ok (ns, rest) → nodesTokens ns ++ rest = ts
  | 0, opts, ts, ns, rest, h => by simp [parseArrayItems] at h
  | fuel + 1, opts, ts, ns, rest, h => by
    rw [parseArrayItems.eq_2] at h
    split at h
    · exact Except.noConfusion h
    · rename_i v0 ts1 hv
      have h1 := parseValue_tokens fuel opts _ _ _ hv
      split at h
      · exact Except.noConfusion h
      · rename_i tv ts2 htv
        have h2 := parseTrivia_tokens opts _ _ _ htv
        split at h
        · exact Except.noConfusion h
        · rename_i u ts3
          split at h
          · injection h with h2x
            injection h2x with hb hr
            subst hb; subst hr
            simp [nodesTokens, nodeTokens, nodesTokens_append, List.append_assoc, h2, h1]
          · split at h
            · split at h
              · exact Except.noConfusion h
              · rename_i tv2 ts4 htv2
                have h3 := parseTrivia_tokens opts _ _ _ htv2
                split at h
                · exact Except.noConfusion h
                · rename_i w tsw
                  split at h
                  · split at h
                    · try dsimp only at h
                      injection h with h2x
                      injection h2x with hb hr
                      subst hb; subst hr
                      simp [nodesTokens, nodeTokens, nodesTokens_append, List.append_assoc,
                        h3, h2, h1]
                    · exact Except.noConfusion h
                  · split at h
                    · exact Except.noConfusion h
                    · rename_i items ts6 hit
                      injection h with h2x
                      injection h2x with hb hr
                      subst hb; subst hr
                      have h4 := parseArrayItems_tokens fuel opts _ _ _ hit
                      simp [nodesTokens, nodeTokens, nodesTokens_append, List.append_assoc,
                        h4, h3, h2, h1]
            · split at h
              · split at h
                · exact Except.noConfusion h
                · rename_i items ts6 hit
                  injection h with h2x
                  injection h2x with hb hr
                  subst hb; subst hr
                  have h4 := parseArrayItems_tokens fuel opts _ _ _ hit
                  simp [nodesTokens, nodeTokens, nodesTokens_append, List.append_assoc,
                    h4, h2, h1]
              · exact Except.noConfusion h

end


theorem parseRoot_tokens (opts : ParseOptions) (ts : List Token) (root : RootNode)
    (h : parseRoot opts ts = .ok root) : nodesTokens root.children = ts := by
  unfold parseRoot at h
  split at h
  · exact Except.noConfusion h
  · rename_i tv1 ts1 htv1
    have h1 := parseTrivia_tokens opts _ _ _ htv1
    split at h
    · injection h with h2
      subst h2
      simpa using h1
    · split at h
      · exact Except.noConfusion h
      · rename_i v0 ts2 hv
        have h2 := parseValue_tokens _ opts _ _ _ hv
        split at h
        · exact Except.noConfusion h
        · rename_i tv2 ts3 htv2
          have h3 := parseTrivia_tokens opts _ _ _ htv2
          split at h
          · injection h with h2x
            subst h2x
            simp only [List.append_nil] at h3
            simp [nodesTokens_append, nodesTokens, List.append_assoc, h3, h2, h1]
          · exact Except.noConfusion h

/-- C1: for every input text `T` and option set `O` such that `parse(T, O)`
succeeds, serializing the resulting tree reproduces `T` exactly:
`toString()` of a parsed-and-unmodified root equals the input byte-for-byte. -/
theorem parse_serialize_roundtrip (text : List Char) (opts : ParseOptions) (root : RootNode)
    (h : parse text opts = .ok root) : root.serialize = text := by
  unfold parse at h
  split at h
  · exact Except.noConfusion h
  · rename_i ts hscan
    have h1 := scan_text opts text ts hscan
    have h2 := parseRoot_tokens opts ts root h
    rw [RootNode.serialize, nodesText_tokens, h2, h1]

/-- The permissive resolved option set: every extension flag enabled. -/
def allTrueOptions : ParseOptions := ⟨true, true, true, true, true, true, true⟩

def inputSimpleObject : List Char := String.toList ("\x7b\"name\": \"test\", \"value\": 42\x7d")

/-- Witness for C1: the round-trip theorem applied to the concrete document
of the repository's `toString roundtrip` test. -/
theorem parse_serialize_roundtrip_witness :
    ∃ root, parse inputSimpleObject allTrueOptions = .ok root ∧
      root.serialize = inputSimpleObject := by
  cases hp : parse inputSimpleObject allTrueOptions with
  | ok r =>
    exact ⟨r, rfl, parse_serialize_roundtrip inputSimpleObject allTrueOptions r hp⟩
  | error e =>
    have hok : (parse inputSimpleObject allTrueOptions).isOk = true := by decide
    rw [hp] at hok
    simp [Except.isOk, Except.toBool] at hok


/-- Modelled from the spec (§4.6): a plain host value.  Numbers keep their
source text: the spec's `numberValue()` is the literal source text, and the
IEEE-754 double conversion of `toValue` is outside this model. -/
inductive JsonValue where
  | null
  | bool (b : Bool)
  | num (text : List Char)
  | str (s : List Char)
  | arr (elems : List JsonValue)
  | obj (props : List (List Char × JsonValue))

def hexDigitVal (c : Char) : Nat :=
  if c.isDigit then c.toNat - 48
  else if 'a' ≤ c && c ≤ 'f' then c.toNat - 87
  else if 'A' ≤ c && c ≤ 'F' then c.toNat - 55
  else 0

def simpleEscapeChar (c : Char) : Char :=
  if c == 'n' then '\n'
  else if c == 't' then '\t'
  else if c == 'r' then '\r'
  else if c == 'b' then '\x08'
  else if c == 'f' then '\x0c'
  else c

/-- Modelled from the spec (§4.1/§3): lazy escape decoding: raw escape
sequences are turned into the characters they denote. -/
def unescapeChars : List Char → List Char
  | [] => []
  | '\\' :: 'u' :: a :: b :: c :: d :: rest =>
    Char.ofNat (4096 * hexDigitVal a + 256 * hexDigitVal b + 16 * hexDigitVal c + hexDigitVal d)
      :: unescapeChars rest
  | '\\' :: e :: rest => simpleEscapeChar e :: unescapeChars rest
  | c :: rest => c :: unescapeChars rest

/-- Modelled from the spec (§3): `decodedValue()` of a string literal: strip
the quotes and decode the escapes. -/
def decodedStringValue (text : List Char) : List Char :=
  unescapeChars ((text.drop 1).dropLast)

/-- Modelled from the spec (§3): `decodedValue()` of a name node: the
unescaped key (a word is its own text). -/
def tokenDecodedValue (t : Token) : List Char :=
  if t.kind == .stringLit then decodedStringValue t.text else t.text

/-- Modelled from the spec (glossary): a significant value child: a container
or a value literal; trivia, punctuation, words and property nodes are not. -/
def isSignificantValue : JsonNode → Bool
  | .object _ => true
  | .array _ => true
  | .prop _ => false
  | .leaf t =>
    match t.kind with
    | .stringLit => true
    | .numberLit => true
    | .booleanLit => true
    | .nullKeyword => true
    | _ => false

/-- Modelled from the spec (§3): `elements()`: the ordered sequence of
significant value children (trivia and commas skipped). -/
def elementsOf : List JsonNode → List JsonNode
  | [] => []
  | n :: ns => if isSignificantValue n then n :: elementsOf ns else elementsOf ns

/-- Modelled from the spec (§3): `name()` on a property: the first name token
among the property's children. -/
def propNameToken : List JsonNode → Option Token
  | [] => none
  | .leaf t :: ns =>
    if t.kind == .stringLit || t.kind == .wordLit then some t else propNameToken ns
  | _ :: ns => propNameToken ns

/-- The first significant value child of a child list. -/
def firstSignificantValue : List JsonNode → Option JsonNode
  | [] => none
  | n :: ns => if isSignificantValue n then some n else firstSignificantValue ns

/-- Modelled from the spec (§3): `value()` on a property: the significant
value child after the colon. -/
def propValueNode : List JsonNode → Option JsonNode
  | [] => none
  | .leaf t :: ns => if t.kind == .colon then firstSignificantValue ns else propValueNode ns
  | _ :: ns => propValueNode ns

/-- Modelled from the spec (§3): `value()` on the root: the single significant
value child. -/
def rootValue (r : RootNode) : Option JsonNode := firstSignificantValue r.children

def msgPropMissingName : List Char := String.toList ("property has no name")

def msgPropMissingValue : List Char := String.toList ("property has no value")

def msgNotAValueNode : List Char := String.toList ("node is not a value")

def msgNoRootValue : List Char := String.toList ("the document has no value")

mutual

/-- Modelled from the spec (§4.6): `toValue(node)`: object to ordered mapping,
array to sequence, string to its decoded text, number to its source text,
boolean and null to host values; fails with a conversion error on an
ill-formed subtree. -/
def nodeToValue : JsonNode → Except JsoncError JsonValue
  | .leaf t =>
    match t.kind with
    | .nullKeyword => .ok .null
    | .booleanLit => .ok (.bool (t.text == trueChars))
    | .numberLit => .ok (.num t.text)
    | .stringLit => .ok (.str (decodedStringValue t.text))
    | _ => .error (.conversionError msgNotAValueNode)
  | .object cs =>
    match objectPropsToValue cs with
    | .error e => .error e
    | .ok ps => .ok (.obj ps)
  | .array cs =>
    match arrayElemsToValue cs with
    | .error e => .error e
    | .ok vs => .ok (.arr vs)
  | .prop _ => .error (.conversionError msgNotAValueNode)

/-- The host entries of an array's children: significant values in order. -/
def arrayElemsToValue : List JsonNode → Except JsoncError (List JsonValue)
  | [] => .ok []
  | n :: ns =>
    if isSignificantValue n then
      match nodeToValue n with
      | .error e => .error e
      | .ok v =>
        match arrayElemsToValue ns with
        | .error e => .error e
        | .ok vs => .ok (v :: vs)
    else arrayElemsToValue ns

/-- The host entry of one property node: its decoded name and its value. -/
def propEntry : JsonNode → Except JsoncError (List Char × JsonValue)
  | .prop pcs =>
    match propNameToken pcs with
    | none => .error (.conversionError msgPropMissingName)
    | some nameTok =>
      match propValueToValue pcs with
      | .error e => .error e
      | .ok v => .ok (tokenDecodedValue nameTok, v)
  | _ => .error (.conversionError msgNotAValueNode)

/-- The host entries of an object's children: one per property, in order. -/
def objectPropsToValue : List JsonNode → Except JsoncError (List (List Char × JsonValue))
  | [] => .ok []
  | .prop pcs :: ns =>
    match propEntry (.prop pcs) with
    | .error e => .error e
    | .ok nv =>
      match objectPropsToValue ns with
      | .error e => .error e
      | .ok ps => .ok (nv :: ps)
  | _ :: ns => objectPropsToValue ns

/-- The value of a property's children: the value after the colon. -/
def propValueToValue : List JsonNode → Except JsoncError JsonValue
  | [] => .error (.conversionError msgPropMissingValue)
  | .leaf t :: ns =>
    if t.kind == .colon then firstValueToValue ns else propValueToValue ns
  | _ :: ns => propValueToValue ns

/-- The value of the first significant node of a child list. -/
def firstValueToValue : List JsonNode → Except JsoncError JsonValue
  | [] => .error (.conversionError msgPropMissingValue)
  | n :: ns => if isSignificantValue n then nodeToValue n else firstValueToValue ns

end

/-- Modelled from the spec (§4.6): `toValue` applied to the root's value. -/
def rootToValue (r : RootNode) : Except JsoncError JsonValue :=
  match rootValue r with
  | some n => nodeToValue n
  | none => .error (.conversionError msgNoRootValue)


mutual

/-- Modelled from the spec (§4.6): the fused pipeline's value parser: the same
recursive descent as `parseValue`, emitting host values directly and skipping
graph construction. -/
def parseValueV : Nat → ParseOptions → List Token → Except JsoncError (JsonValue × List Token)
  | 0, _, _ => .error (.syntaxError msgOutOfFuel)
  | _ + 1, _, [] => .error (.syntaxError msgExpectedValue)
  | fuel + 1, opts, t :: ts =>
    match t.kind with
    | .lbrace =>
      match parseTrivia opts ts with
      | .error err => .error err
      | .ok (_, ts2) =>
        match ts2 with
        | [] => .error (.syntaxError msgUnexpectedEof)
        | r :: ts3 =>
          if r.kind == .rbrace then .ok (.obj [], ts3)
          else
            match parseObjectItemsV fuel opts ts2 with
            | .error err => .error err
            | .ok (ps, ts4) => .ok (.obj ps, ts4)
    | .lbracket =>
      match parseTrivia opts ts with
      | .error err => .error err
      | .ok (_, ts2) =>
        match ts2 with
        | [] => .error (.syntaxError msgUnexpectedEof)
        | r :: ts3 =>
          if r.kind == .rbracket then .ok (.arr [], ts3)
          else
            match parseArrayItemsV fuel opts ts2 with
            | .error err => .error err
            | .ok (vs, ts4) => .ok (.arr vs, ts4)
    | .stringLit => .ok (.str (decodedStringValue t.text), ts)
    | .numberLit => .ok (.num t.text, ts)
    | .booleanLit => .ok (.bool (t.text == trueChars), ts)
    | .nullKeyword => .ok (.null, ts)
    | _ => .error (.syntaxError msgExpectedValue)

/-- The fused counterpart of `parseObjectItems`, emitting property entries. -/
def parseObjectItemsV : Nat → ParseOptions → List Token →
    Except JsoncError (List (List Char × JsonValue) × List Token)
  | 0, _, _ => .error (.syntaxError msgOutOfFuel)
  | fuel + 1, opts, ts =>
    match parsePropV fuel opts ts with
    | .error err => .error err
    | .ok (nv, ts1) =>
      match parseTrivia opts ts1 with
      | .error err => .error err
      | .ok (_, ts2) =>
        match ts2 with
        | [] => .error (.syntaxError msgUnexpectedEof)
        | u :: ts3 =>
          if u.kind == .rbrace then .ok ([nv], ts3)
          else if u.kind == .comma then
            match parseTrivia opts ts3 with
            | .error err => .error err
            | .ok (_, ts4) =>
              match ts4 with
              | [] => .error (.syntaxError msgUnexpectedEof)
              | v :: _ =>
                if v.kind == .rbrace then
                  if opts.allowTrailingCommas then
                    match ts4 with
                    | [] => .error (.syntaxError msgUnexpectedEof)
                    | _ :: ts5 => .ok ([nv], ts5)
                  else .error (.syntaxError msgTrailingCommaNotAllowed)
                else
                  match parseObjectItemsV fuel opts ts4 with
                  | .error err => .error err
                  | .ok (items, ts6) => .ok (nv :: items, ts6)
          else
            if opts.allowMissingCommas then
              match parseObjectItemsV fuel opts ts2 with
              | .error err => .error err
              | .ok (items, ts6) => .ok (nv :: items, ts6)
            else .error (.syntaxError msgMissingCommaNotAllowed)

/-- The fused counterpart of `parseProp`, emitting one property entry. -/
def parsePropV : Nat → ParseOptions → List Token →
    Except JsoncError ((List Char × JsonValue) × List Token)
  | 0, _, _ => .error (.syntaxError msgOutOfFuel)
  | _ + 1, _, [] => .error (.syntaxError msgExpectedPropName)
  | fuel + 1, opts, n :: ts =>
    if isPropNameToken opts n then
      match parseTrivia opts ts with
      | .error err => .error err
      | .ok (_, ts2) =>
        match ts2 with
        | [] => .error (.syntaxError msgExpectedColon)
        | cTok :: ts3 =>
          if cTok.kind == .colon then
            match parseTrivia opts ts3 with
            | .error err => .error err
            | .ok (_, ts4) =>
              match parseValueV fuel opts ts4 with
              | .error err => .error err
              | .ok (v, ts5) => .ok ((tokenDecodedValue n, v), ts5)
          else .error (.syntaxError msgExpectedColon)
    else .error (.syntaxError msgExpectedPropName)

/-- The fused counterpart of `parseArrayItems`, emitting element values. -/
def parseArrayItemsV : Nat → ParseOptions → List Token →
    Except JsoncError (List JsonValue × List Token)
  | 0, _, _ => .error (.syntaxError msgOutOfFuel)
  | fuel + 1, opts, ts =>
    match parseValueV fuel opts ts with
    | .error err => .error err
    | .ok (v, ts1) =>
      match parseTrivia opts ts1 with
      | .error err => .error err
      | .ok (_, ts2) =>
        match ts2 with
        | [] => .error (.syntaxError msgUnexpectedEof)
        | u :: ts3 =>
          if u.kind == .rbracket then .ok ([v], ts3)
          else if u.kind == .comma then
            match parseTrivia opts ts3 with
            | .error err => .error err
            | .ok (_, ts4) =>
              match ts4 with
              | [] => .error (.syntaxError msgUnexpectedEof)
              | w :: _ =>
                if w.kind == .rbracket then
                  if opts.allowTrailingCommas then
                    match ts4 with
                    | [] => .error (.syntaxError msgUnexpectedEof)
                    | _ :: ts5 => .ok ([v], ts5)
                  else .error (.syntaxError msgTrailingCommaNotAllowed)
                else
                  match parseArrayItemsV fuel opts ts4 with
                  | .error err => .error err
                  | .ok (items, ts6) => .ok (v :: items, ts6)
          else
            if opts.allowMissingCommas then
              match parseArrayItemsV fuel opts ts2 with
              | .error err => .error err
              | .ok (items, ts6) => .ok (v :: items, ts6)
            else .error (.syntaxError msgMissingCommaNotAllowed)

end

/-- The fused pipeline's root rule: trivia, value, trivia, end of input. -/
def parseRootV (opts : ParseOptions) (ts : List Token) : Except JsoncError JsonValue :=
  match parseTrivia opts ts with
  | .error err => .error err
  | .ok (_, ts1) =>
    match ts1 with
    | [] => .error (.conversionError msgNoRootValue)
    | _ =>
      match parseValueV (3 * ts.length + 3) opts ts1 with
      | .error err => .error err
      | .ok (v, ts2) =>
        match parseTrivia opts ts2 with
        | .error err => .error err
        | .ok (_, ts3) =>
          match ts3 with
          | [] => .ok v
          | _ => .error (.syntaxError msgUnexpectedToken)

/-- Modelled from the spec (§4.6): `parseToValue(text, opts)`: the fused
pipeline Scanner → Parser → value bridge, skipping graph construction. -/
def parseToValue (text : List Char) (opts : ParseOptions) : Except JsoncError JsonValue :=
  match scan opts text with
  | .error err => .error err
  | .ok ts => parseRootV opts ts


def isTriviaLeaf : JsonNode → Bool
  | .leaf t => isTriviaToken t
  | _ => false

def allTriviaLeaves : List JsonNode → Bool
  | [] => true
  | n :: ns => isTriviaLeaf n && allTriviaLeaves ns

theorem isTriviaToken_not_significant (t : Token) (h : isTriviaToken t = true) :
    isSignificantValue (.leaf t) = false ∧ (t.kind == TokenKind.colon) = false ∧
      (t.kind == TokenKind.stringLit || t.kind == TokenKind.wordLit) = false := by
  cases hk : t.kind <;> simp_all [isTriviaToken, isSignificantValue]

theorem parseTrivia_leaves (opts : ParseOptions) : ∀ (ts : List Token) (ns : List JsonNode)
    (rest : List Token), parseTrivia opts ts = .ok (ns, rest) → allTriviaLeaves ns = true := by
  intro ts
  induction ts with
  | nil =>
    intro ns rest h
    simp [parseTrivia] at h
    obtain ⟨h1, h2⟩ := h
    subst h1
    rfl
  | cons t ts ih =>
    intro ns rest h
    rw [parseTrivia.eq_def] at h
    dsimp only at h
    split at h
    · split at h
      · exact Except.noConfusion h
      · split at h
        · rename_i hrec
          injection h with h2
          injection h2 with hb hr
          subst hb
          have h1 := ih _ _ hrec
          simp only [allTriviaLeaves, isTriviaLeaf, h1, Bool.and_true]
          assumption
        · exact Except.noConfusion h
    · injection h with h2
      injection h2 with hb hr
      subst hb
      rfl

theorem objectPropsToValue_leaf (t : Token) (ns : List JsonNode) :
    objectPropsToValue (.leaf t :: ns) = objectPropsToValue ns := by
  rw [objectPropsToValue.eq_def]

theorem objectPropsToValue_trivia (tv : List JsonNode) (h : allTriviaLeaves tv = true) :
    ∀ ns, objectPropsToValue (tv ++ ns) = objectPropsToValue ns := by
  induction tv with
  | nil => intro ns; rfl
  | cons n tv ih =>
    intro ns
    rw [allTriviaLeaves] at h
    obtain ⟨h1, h2⟩ := Bool.and_eq_true_iff.mp h
    match n, h1 with
    | .leaf t, h1 =>
      rw [List.cons_append, objectPropsToValue_leaf, ih h2]

theorem arrayElemsToValue_skip (n : JsonNode) (h : isSignificantValue n = false)
    (ns : List JsonNode) : arrayElemsToValue (n :: ns) = arrayElemsToValue ns := by
  rw [arrayElemsToValue.eq_def]
  dsimp only
  rw [h]
  simp

theorem arrayElemsToValue_trivia (tv : List JsonNode) (h : allTriviaLeaves tv = true) :
    ∀ ns, arrayElemsToValue (tv ++ ns) = arrayElemsToValue ns := by
  induction tv with
  | nil => intro ns; rfl
  | cons n tv ih =>
    intro ns
    rw [allTriviaLeaves] at h
    obtain ⟨h1, h2⟩ := Bool.and_eq_true_iff.mp h
    match n, h1 with
    | .leaf t, h1 =>
      have hsig := (isTriviaToken_not_significant t h1).1
      rw [List.cons_append, arrayElemsToValue_skip _ hsig, ih h2]

theorem firstValueToValue_skip (n : JsonNode) (h : isSignificantValue n = false)
    (ns : List JsonNode) : firstValueToValue (n :: ns) = firstValueToValue ns := by
  rw [firstValueToValue.eq_def]
  dsimp only
  rw [h]
  simp

theorem firstValueToValue_trivia (tv : List JsonNode) (h : allTriviaLeaves tv = true) :
    ∀ ns, firstValueToValue (tv ++ ns) = firstValueToValue ns := by
  induction tv with
  | nil => intro ns; rfl
  | cons n tv ih =>
    intro ns
    rw [allTriviaLeaves] at h
    obtain ⟨h1, h2⟩ := Bool.and_eq_true_iff.mp h
    match n, h1 with
    | .leaf t, h1 =>
      have hsig := (isTriviaToken_not_significant t h1).1
      rw [List.cons_append, firstValueToValue_skip _ hsig, ih h2]

theorem propValueToValue_leaf_notColon (t : Token) (h : (t.kind == TokenKind.colon) = false)
    (ns : List JsonNode) : propValueToValue (.leaf t :: ns) = propValueToValue ns := by
  rw [propValueToValue.eq_def]
  dsimp only
  rw [h]
  simp

theorem propValueToValue_trivia (tv : List JsonNode) (h : allTriviaLeaves tv = true) :
    ∀ ns, propValueToValue (tv ++ ns) = propValueToValue ns := by
  induction tv with
  | nil => intro ns; rfl
  | cons n tv ih =>
    intro ns
    rw [allTriviaLeaves] at h
    obtain ⟨h1, h2⟩ := Bool.and_eq_true_iff.mp h
    match n, h1 with
    | .leaf t, h1 =>
      have hc := (isTriviaToken_not_significant t h1).2.1
      rw [List.cons_append, propValueToValue_leaf_notColon _ hc, ih h2]

theorem propValueToValue_leaf_colon (t : Token) (h : (t.kind == TokenKind.colon) = true)
    (ns : List JsonNode) : propValueToValue (.leaf t :: ns) = firstValueToValue ns := by
  rw [propValueToValue.eq_def]
  dsimp only
  rw [h]
  simp

theorem propNameToken_name (t : Token)
    (h : (t.kind == TokenKind.stringLit || t.kind == TokenKind.wordLit) = true)
    (ns : List JsonNode) : propNameToken (.leaf t :: ns) = some t := by
  rw [propNameToken.eq_def]
  dsimp only
  rw [h]
  simp

theorem parseValue_significant : ∀ (fuel : Nat) (opts : ParseOptions) (ts : List Token)
    (v : JsonNode) (rest : List Token),
    parseValue fuel opts ts = .ok (v, rest) → isSignificantValue v = true := by
  intro fuel opts ts v rest h
  match fuel, ts with
  | 0, ts => simp [parseValue] at h
  | fuel + 1, [] => simp [parseValue] at h
  | fuel + 1, t :: ts =>
    rw [parseValue.eq_3] at h
    cases hk : t.kind <;> rw [hk] at h <;> dsimp only at h
    case lbrace =>
      split at h
      · exact Except.noConfusion h
      · split at h
        · exact Except.noConfusion h
        · split at h
          · injection h with h2
            injection h2 with hb hr
            subst hb
            rfl
          · split at h
            · exact Except.noConfusion h
            · injection h with h2
              injection h2 with hb hr
              subst hb
              rfl
    case lbracket =>
      split at h
      · exact Except.noConfusion h
      · split at h
        · exact Except.noConfusion h
        · split at h
          · injection h with h2
            injection h2 with hb hr
            subst hb
            rfl
          · split at h
            · exact Except.noConfusion h
            · injection h with h2
              injection h2 with hb hr
              subst hb
              rfl
    case stringLit =>
      injection h with h2
      injection h2 with hb hr
      subst hb
      simp [isSignificantValue, hk]
    case numberLit =>
      injection h with h2
      injection h2 with hb hr
      subst hb
      simp [isSignificantValue, hk]
    case booleanLit =>
      injection h with h2
      injection h2 with hb hr
      subst hb
      simp [isSignificantValue, hk]
    case nullKeyword =>
      injection h with h2
      injection h2 with hb hr
      subst hb
      simp [isSignificantValue, hk]
    case rbrace => exact Except.noConfusion h
    case rbracket => exact Except.noConfusion h
    case comma => exact Except.noConfusion h
    case colon => exact Except.noConfusion h
    case wordLit => exact Except.noConfusion h
    case whitespace => exact Except.noConfusion h
    case newline => exact Except.noConfusion h
    case lineComment => exact Except.noConfusion h
    case blockComment => exact Except.noConfusion h


theorem isPropNameToken_name_kind (opts : ParseOptions) (t : Token)
    (h : isPropNameToken opts t = true) :
    (t.kind == TokenKind.stringLit || t.kind == TokenKind.wordLit) = true ∧
      (t.kind == TokenKind.colon) = false := by
  cases hk : t.kind <;> simp_all [isPropNameToken]

theorem firstValueToValue_single (n : JsonNode) (h : isSignificantValue n = true)
    (ns : List JsonNode) : firstValueToValue (n :: ns) = nodeToValue n := by
  rw [firstValueToValue.eq_def]
  dsimp only
  rw [h]
  simp

theorem objectPropsToValue_nil : objectPropsToValue [] = .ok [] := by
  rw [objectPropsToValue.eq_def]

theorem arrayElemsToValue_nil : arrayElemsToValue [] = .ok [] := by
  rw [arrayElemsToValue.eq_def]

theorem notSignificant_of_kind (u : Token) (hk : u.kind = TokenKind.comma ∨
    u.kind = TokenKind.rbrace ∨ u.kind = TokenKind.rbracket) :
    isSignificantValue (.leaf u) = false := by
  rcases hk with hk | hk | hk <;> simp [isSignificantValue, hk]

/-- `propEntry` succeeds on the property node assembled by `parseProp`. -/
theorem propEntry_parsed (n cTok : Token) (tv1 tv2 : List JsonNode) (v0 : JsonNode)
    (hname : (n.kind == TokenKind.stringLit || n.kind == TokenKind.wordLit) = true)
    (hncol : (n.kind == TokenKind.colon) = false)
    (hcol : (cTok.kind == TokenKind.colon) = true)
    (hlv1 : allTriviaLeaves tv1 = true) (hlv2 : allTriviaLeaves tv2 = true)
    (hsig : isSignificantValue v0 = true) :
    propEntry (.prop (.leaf n :: (tv1 ++ .leaf cTok :: (tv2 ++ [v0])))) =
      match nodeToValue v0 with
      | .error e => .error e
      | .ok v => .ok (tokenDecodedValue n, v) := by
  have hpv : propValueToValue (JsonNode.leaf n :: (tv1 ++ .leaf cTok :: (tv2 ++ [v0]))) =
      nodeToValue v0 := by
    rw [propValueToValue_leaf_notColon n hncol, propValueToValue_trivia tv1 hlv1,
      propValueToValue_leaf_colon cTok hcol, firstValueToValue_trivia tv2 hlv2,
      firstValueToValue_single v0 hsig]
  rw [propEntry.eq_def]
  dsimp only
  rw [propNameToken_name n hname, hpv]

theorem parseProp_shape : ∀ (fuel : Nat) (opts : ParseOptions) (ts : List Token)
    (p : JsonNode) (rest : List Token),
    parseProp fuel opts ts = .ok (p, rest) → ∃ pcs, p = .prop pcs := by
  intro fuel opts ts p rest h
  match fuel, ts with
  | 0, ts => simp [parseProp] at h
  | fuel + 1, [] => simp [parseProp] at h
  | fuel + 1, n :: ts =>
    rw [parseProp.eq_3] at h
    split at h
    · split at h
      · exact Except.noConfusion h
      · split at h
        · exact Except.noConfusion h
        · split at h
          · split at h
            · exact Except.noConfusion h
            · split at h
              · exact Except.noConfusion h
              · injection h with h2x
                injection h2x with hb hr
                subst hb
                exact ⟨_, rfl⟩
          · exact Except.noConfusion h
    · exact Except.noConfusion h


mutual

theorem parseValue_conv : ∀ (fuel : Nat) (opts : ParseOptions) (ts : List Token)
    (v : JsonNode) (rest : List Token),
    parseValue fuel opts ts = .ok (v, rest) → ∃ val, nodeToValue v = .ok val
  | 0, opts, ts, v, rest, h => by simp [parseValue] at h
  | fuel + 1, opts, [], v, rest, h => by simp [parseValue] at h
  | fuel + 1, opts, t :: ts, v, rest, h => by
    rw [parseValue.eq_3] at h
    cases hk : t.kind <;> rw [hk] at h <;> dsimp only at h
    case lbrace =>
      split at h
      · exact Except.noConfusion h
      · rename_i tv ts2 htv
        have hlv := parseTrivia_leaves opts _ _ _ htv
        split at h
        · exact Except.noConfusion h
        · rename_i r ts3
          split at h
          · injection h with h2
            injection h2 with hb hr
            subst hb
            refine ⟨.obj [], ?_⟩
            rw [nodeToValue.eq_def]
            dsimp only
            rw [objectPropsToValue_leaf, objectPropsToValue_trivia tv hlv,
              objectPropsToValue_leaf, objectPropsToValue_nil]
          · split at h
            · exact Except.noConfusion h
            · rename_i items ts4 hitems
              injection h with h2
              injection h2 with hb hr
              subst hb
              obtain ⟨ps, hps⟩ := parseObjectItems_conv fuel opts _ _ _ hitems
              refine ⟨.obj ps, ?_⟩
              rw [nodeToValue.eq_def]
              dsimp only
              rw [objectPropsToValue_leaf, objectPropsToValue_trivia tv hlv, hps]
    case lbracket =>
      split at h
      · exact Except.noConfusion h
      · rename_i tv ts2 htv
        have hlv := parseTrivia_leaves opts _ _ _ htv
        split at h
        · exact Except.noConfusion h
        · rename_i r ts3
          split at h
          · rename_i hrk
            injection h with h2
            injection h2 with hb hr
            subst hb
            refine ⟨.arr [], ?_⟩
            rw [nodeToValue.eq_def]
            dsimp only
            have hr1 : isSignificantValue (JsonNode.leaf r) = false := by
              simp only [beq_iff_eq] at hrk
              exact notSignificant_of_kind r (Or.inr (Or.inr hrk))
            have hlb : isSignificantValue (JsonNode.leaf t) = false := by
              simp [isSignificantValue, hk]
            rw [arrayElemsToValue_skip _ hlb, arrayElemsToValue_trivia tv hlv,
              arrayElemsToValue_skip _ hr1, arrayElemsToValue_nil]
          · split at h
            · exact Except.noConfusion h
            · rename_i items ts4 hitems
              injection h with h2
              injection h2 with hb hr
              subst hb
              obtain ⟨vs, hvs⟩ := parseArrayItems_conv fuel opts _ _ _ hitems
              refine ⟨.arr vs, ?_⟩
              rw [nodeToValue.eq_def]
              dsimp only
              have hlb : isSignificantValue (JsonNode.leaf t) = false := by
                simp [isSignificantValue, hk]
              rw [arrayElemsToValue_skip _ hlb, arrayElemsToValue_trivia tv hlv, hvs]
    case stringLit =>
      injection h with h2
      injection h2 with hb hr
      subst hb
      exact ⟨.str (decodedStringValue t.text), by simp [nodeToValue, hk]⟩
    case numberLit =>
      injection h with h2
      injection h2 with hb hr
      subst hb
      exact ⟨.num t.text, by simp [nodeToValue, hk]⟩
    case booleanLit =>
      injection h with h2
      injection h2 with hb hr
      subst hb
      exact ⟨.bool (t.text == trueChars), by simp [nodeToValue, hk]⟩
    case nullKeyword =>
      injection h with h2
      injection h2 with hb hr
      subst hb
      exact ⟨.null, by simp [nodeToValue, hk]⟩
    case rbrace => exact Except.noConfusion h
    case rbracket => exact Except.noConfusion h
    case comma => exact Except.noConfusion h
    case colon => exact Except.noConfusion h
    case wordLit => exact Except.noConfusion h
    case whitespace => exact Except.noConfusion h
    case newline => exact Except.noConfusion h
    case lineComment => exact Except.noConfusion h
    case blockComment => exact Except.noConfusion h

theorem parseObjectItems_conv : ∀ (fuel : Nat) (opts : ParseOptions) (ts : List Token)
    (ns : List JsonNode) (rest : List Token),
    parseObjectItems fuel opts ts = .ok (ns, rest) → ∃ ps, objectPropsToValue ns = .ok ps
  | 0, opts, ts, ns, rest, h => by simp [parseObjectItems] at h
  | fuel + 1, opts, ts, ns, rest, h => by
    rw [parseObjectItems.eq_2] at h
    split at h
    · exact Except.noConfusion h
    · rename_i p ts1 hp
      obtain ⟨nv, hnv⟩ := parseProp_conv fuel opts _ _ _ hp
      obtain ⟨pcs, hpcs⟩ := parseProp_shape fuel opts _ _ _ hp
      subst hpcs
      split at h
      · exact Except.noConfusion h
      · rename_i tv ts2 htv
        have hlv := parseTrivia_leaves opts _ _ _ htv
        split at h
        · exact Except.noConfusion h
        · rename_i u ts3
          split at h
          · injection h with h2x
            injection h2x with hb hr
            subst hb
            refine ⟨[nv], ?_⟩
            rw [objectPropsToValue.eq_def]
            dsimp only
            rw [hnv]
            dsimp only
            rw [objectPropsToValue_trivia tv hlv, objectPropsToValue_leaf,
              objectPropsToValue_nil]
          · split at h
            · split at h
              · exact Except.noConfusion h
              · rename_i tv2 ts4 htv2
                have hlv2 := parseTrivia_leaves opts _ _ _ htv2
                split at h
                · exact Except.noConfusion h
                · rename_i w tsw
                  split at h
                  · split at h
                    · try dsimp only at h
                      injection h with h2x
                      injection h2x with hb hr
                      subst hb
                      refine ⟨[nv], ?_⟩
                      rw [objectPropsToValue.eq_def]
                      dsimp only
                      rw [hnv]
                      dsimp only
                      rw [objectPropsToValue_trivia tv hlv, objectPropsToValue_leaf,
                        objectPropsToValue_trivia tv2 hlv2, objectPropsToValue_leaf,
                        objectPropsToValue_nil]
                    · exact Except.noConfusion h
                  · split at h
                    · exact Except.noConfusion h
                    · rename_i items ts6 hit
                      injection h with h2x
                      injection h2x with hb hr
                      subst hb
                      obtain ⟨ps, hps⟩ := parseObjectItems_conv fuel opts _ _ _ hit
                      refine ⟨nv :: ps, ?_⟩
                      rw [objectPropsToValue.eq_def]
                      dsimp only
                      rw [hnv]
                      dsimp only
                      rw [objectPropsToValue_trivia tv hlv, objectPropsToValue_leaf,
                        objectPropsToValue_trivia tv2 hlv2, hps]
            · split at h
              · split at h
                · exact Except.noConfusion h
                · rename_i items ts6 hit
                  injection h with h2x
                  injection h2x with hb hr
                  subst hb
                  obtain ⟨ps, hps⟩ := parseObjectItems_conv fuel opts _ _ _ hit
                  refine ⟨nv :: ps, ?_⟩
                  rw [objectPropsToValue.eq_def]
                  dsimp only
                  rw [hnv]
                  dsimp only
                  rw [objectPropsToValue_trivia tv hlv, hps]
              · exact Except.noConfusion h

theorem parseProp_conv : ∀ (fuel : Nat) (opts : ParseOptions) (ts : List Token)
    (p : JsonNode) (rest : List Token),
    parseProp fuel opts ts = .ok (p, rest) → ∃ nv, propEntry p = .ok nv
  | 0, opts, ts, p, rest, h => by simp [parseProp] at h
  | fuel + 1, opts, [], p, rest, h => by simp [parseProp] at h
  | fuel + 1, opts, n :: ts, p, rest, h => by
    rw [parseProp.eq_3] at h
    split at h
    · rename_i hpn
      split at h
      · exact Except.noConfusion h
      · rename_i tv1 ts2 htv1
        have hlv1 := parseTrivia_leaves opts _ _ _ htv1
        split at h
        · exact Except.noConfusion h
        · rename_i cTok ts3
          split at h
          · rename_i hcol
            split at h
            · exact Except.noConfusion h
            · rename_i tv2 ts4 htv2
              have hlv2 := parseTrivia_leaves opts _ _ _ htv2
              split at h
              · exact Except.noConfusion h
              · rename_i v0 ts5 hv
                injection h with h2x
                injection h2x with hb hr
                subst hb
                have hsig := parseValue_significant fuel opts _ _ _ hv
                obtain ⟨val, hval⟩ := parseValue_conv fuel opts _ _ _ hv
                obtain ⟨hname, hncol⟩ := isPropNameToken_name_kind opts n hpn
                refine ⟨(tokenDecodedValue n, val), ?_⟩
                rw [propEntry_parsed n cTok tv1 tv2 v0 hname hncol hcol hlv1 hlv2 hsig,
                  hval]
          · exact Except.noConfusion h
    · exact Except.noConfusion h

theorem parseArrayItems_conv : ∀ (fuel : Nat) (opts : ParseOptions) (ts : List Token)
    (ns : List JsonNode) (rest : List Token),
    parseArrayItems fuel opts ts = .ok (ns, rest) → ∃ vs, arrayElemsToValue ns = .ok vs
  | 0, opts, ts, ns, rest, h => by simp [parseArrayItems] at h
  | fuel + 1, opts, ts, ns, rest, h => by
    rw [parseArrayItems.eq_2] at h
    split at h
    · exact Except.noConfusion h
    · rename_i v0 ts1 hv
      have hsig := parseValue_significant fuel opts _ _ _ hv
      obtain ⟨val, hval⟩ := parseValue_conv fuel opts _ _ _ hv
      split at h
      · exact Except.noConfusion h
      · rename_i tv ts2 htv
        have hlv := parseTrivia_leaves opts _ _ _ htv
        split at h
        · exact Except.noConfusion h
        · rename_i u ts3
          split at h
          · rename_i hurb
            injection h with h2x
            injection h2x with hb hr
            subst hb
            refine ⟨[val], ?_⟩
            have hu : isSignificantValue (JsonNode.leaf u) = false := by
              simp only [beq_iff_eq] at hurb
              exact notSignificant_of_kind u (Or.inr (Or.inr hurb))
            rw [arrayElemsToValue.eq_def]
            dsimp only
            simp only [hsig, hval]
            try dsimp only
            rw [arrayElemsToValue_trivia tv hlv, arrayElemsToValue_skip _ hu,
              arrayElemsToValue_nil]
            simp
          · split at h
            · rename_i hucomma
              have hu : isSignificantValue (JsonNode.leaf u) = false := by
                simp only [beq_iff_eq] at hucomma
                exact notSignificant_of_kind u (Or.inl hucomma)
              split at h
              · exact Except.noConfusion h
              · rename_i tv2 ts4 htv2
                have hlv2 := parseTrivia_leaves opts _ _ _ htv2
                split at h
                · exact Except.noConfusion h
                · rename_i w tsw
                  split at h
                  · rename_i hwrb
                    have hw : isSignificantValue (JsonNode.leaf w) = false := by
                      simp only [beq_iff_eq] at hwrb
                      exact notSignificant_of_kind w (Or.inr (Or.inr hwrb))
                    split at h
                    · try dsimp only at h
                      injection h with h2x
                      injection h2x with hb hr
                      subst hb
                      refine ⟨[val], ?_⟩
                      rw [arrayElemsToValue.eq_def]
                      dsimp only
                      simp only [hsig, hval]
                      try dsimp only
                      rw [arrayElemsToValue_trivia tv hlv, arrayElemsToValue_skip _ hu,
                        arrayElemsToValue_trivia tv2 hlv2, arrayElemsToValue_skip _ hw,
                        arrayElemsToValue_nil]
                      simp
                    · exact Except.noConfusion h
                  · split at h
                    · exact Except.noConfusion h
                    · rename_i items ts6 hit
                      injection h with h2x
                      injection h2x with hb hr
                      subst hb
                      obtain ⟨vs, hvs⟩ := parseArrayItems_conv fuel opts _ _ _ hit
                      refine ⟨val :: vs, ?_⟩
                      rw [arrayElemsToValue.eq_def]
                      dsimp only
                      simp only [hsig, hval]
                      try dsimp only
                      rw [arrayElemsToValue_trivia tv hlv, arrayElemsToValue_skip _ hu,
                        arrayElemsToValue_trivia tv2 hlv2, hvs]
                      simp
            · split at h
              · split at h
                · exact Except.noConfusion h
                · rename_i items ts6 hit
                  injection h with h2x
                  injection h2x with hb hr
                  subst hb
                  obtain ⟨vs, hvs⟩ := parseArrayItems_conv fuel opts _ _ _ hit
                  refine ⟨val :: vs, ?_⟩
                  rw [arrayElemsToValue.eq_def]
                  dsimp only
                  simp only [hsig, hval]
                  try dsimp only
                  rw [arrayElemsToValue_trivia tv hlv, hvs]
                  simp
              · exact Except.noConfusion h

end



mutual

theorem parseValueV_eq : ∀ (fuel : Nat) (opts : ParseOptions) (ts : List Token),
    parseValueV fuel opts ts =
      match parseValue fuel opts ts with
      | .error e => .error e
      | .ok (n, rest) =>
        match nodeToValue n with
        | .error e => .error e
        | .ok v => .ok (v, rest)
  | 0, opts, ts => by simp [parseValue, parseValueV]
  | fuel + 1, opts, [] => by simp [parseValue, parseValueV]
  | fuel + 1, opts, t :: ts => by
    rw [parseValueV.eq_3, parseValue.eq_3]
    cases hk : t.kind <;> try dsimp only
    case lbrace =>
      cases htv : parseTrivia opts ts with
      | error e => simp [htv]
      | ok pr =>
        obtain ⟨tv, ts2⟩ := pr
        have hlv := parseTrivia_leaves opts _ _ _ htv
        simp only [htv]
        try dsimp only
        cases ts2 with
        | nil => rfl
        | cons r ts3 =>
          try dsimp only
          by_cases hr : (r.kind == TokenKind.rbrace) = true
          · rw [if_pos hr, if_pos hr]
            have hop : objectPropsToValue (JsonNode.leaf t :: (tv ++ [JsonNode.leaf r])) =
                .ok [] := by
              rw [objectPropsToValue_leaf, objectPropsToValue_trivia tv hlv,
                objectPropsToValue_leaf, objectPropsToValue_nil]
            simp [nodeToValue, hop]
          · rw [if_neg hr, if_neg hr]
            have hIH := parseObjectItemsV_eq fuel opts (r :: ts3)
            rw [hIH]
            cases hoi : parseObjectItems fuel opts (r :: ts3) with
            | error e => simp [hoi]
            | ok pr2 =>
              obtain ⟨items, ts4⟩ := pr2
              simp only [hoi]
              try dsimp only
              have hop : objectPropsToValue (JsonNode.leaf t :: (tv ++ items)) =
                  objectPropsToValue items := by
                rw [objectPropsToValue_leaf, objectPropsToValue_trivia tv hlv]
              cases hpv : objectPropsToValue items with
              | error e => simp [nodeToValue, hop, hpv]
              | ok ps => simp [nodeToValue, hop, hpv]
    case lbracket =>
      have hlb : isSignificantValue (JsonNode.leaf t) = false := by
        simp [isSignificantValue, hk]
      cases htv : parseTrivia opts ts with
      | error e => simp [htv]
      | ok pr =>
        obtain ⟨tv, ts2⟩ := pr
        have hlv := parseTrivia_leaves opts _ _ _ htv
        simp only [htv]
        try dsimp only
        cases ts2 with
        | nil => rfl
        | cons r ts3 =>
          try dsimp only
          by_cases hr : (r.kind == TokenKind.rbracket) = true
          · rw [if_pos hr, if_pos hr]
            have hrs : isSignificantValue (JsonNode.leaf r) = false := by
              simp only [beq_iff_eq] at hr
              exact notSignificant_of_kind r (Or.inr (Or.inr hr))
            have hop : arrayElemsToValue (JsonNode.leaf t :: (tv ++ [JsonNode.leaf r])) =
                .ok [] := by
              rw [arrayElemsToValue_skip _ hlb, arrayElemsToValue_trivia tv hlv,
                arrayElemsToValue_skip _ hrs, arrayElemsToValue_nil]
            simp [nodeToValue, hop]
          · rw [if_neg hr, if_neg hr]
            have hIH := parseArrayItemsV_eq fuel opts (r :: ts3)
            rw [hIH]
            cases hoi : parseArrayItems fuel opts (r :: ts3) with
            | error e => simp [hoi]
            | ok pr2 =>
              obtain ⟨items, ts4⟩ := pr2
              simp only [hoi]
              try dsimp only
              have hop : arrayElemsToValue (JsonNode.leaf t :: (tv ++ items)) =
                  arrayElemsToValue items := by
                rw [arrayElemsToValue_skip _ hlb, arrayElemsToValue_trivia tv hlv]
              cases hpv : arrayElemsToValue items with
              | error e => simp [nodeToValue, hop, hpv]
              | ok vs => simp [nodeToValue, hop, hpv]
    case stringLit => simp [nodeToValue, hk]
    case numberLit => simp [nodeToValue, hk]
    case booleanLit => simp [nodeToValue, hk]
    case nullKeyword => simp [nodeToValue, hk]

theorem parseObjectItemsV_eq : ∀ (fuel : Nat) (opts : ParseOptions) (ts : List Token),
    parseObjectItemsV fuel opts ts =
      match parseObjectItems fuel opts ts with
      | .error e => .error e
      | .ok (ns, rest) =>
        match objectPropsToValue ns with
        | .error e => .error e
        | .ok ps => .ok (ps, rest)
  | 0, opts, ts => by simp [parseObjectItems, parseObjectItemsV]
  | fuel + 1, opts, ts => by
    rw [parseObjectItemsV.eq_2, parseObjectItems.eq_2]
    have hIH := parsePropV_eq fuel opts ts
    rw [hIH]
    cases hp : parseProp fuel opts ts with
    | error e => simp [hp]
    | ok pr =>
      obtain ⟨p, ts1⟩ := pr
      simp only [hp]
      try dsimp only
      obtain ⟨nv, hnv⟩ := parseProp_conv fuel opts _ _ _ hp
      obtain ⟨pcs, hpcs⟩ := parseProp_shape fuel opts _ _ _ hp
      subst hpcs
      rw [hnv]
      try dsimp only
      cases htv : parseTrivia opts ts1 with
      | error e => simp [htv]
      | ok pr2 =>
        obtain ⟨tv, ts2⟩ := pr2
        have hlv := parseTrivia_leaves opts _ _ _ htv
        simp only [htv]
        try dsimp only
        cases ts2 with
        | nil => rfl
        | cons u ts3 =>
          try dsimp only
          by_cases hub : (u.kind == TokenKind.rbrace) = true
          · rw [if_pos hub, if_pos hub]
            have hops : objectPropsToValue
                (JsonNode.prop pcs :: (tv ++ [JsonNode.leaf u])) = .ok [nv] := by
              rw [objectPropsToValue.eq_def]
              try dsimp only
              rw [hnv]
              try dsimp only
              rw [objectPropsToValue_trivia tv hlv, objectPropsToValue_leaf,
                objectPropsToValue_nil]
            try dsimp only
            rw [hops]
          · rw [if_neg hub, if_neg hub]
            by_cases huc : (u.kind == TokenKind.comma) = true
            · rw [if_pos huc, if_pos huc]
              cases htv2 : parseTrivia opts ts3 with
              | error e => simp [htv2]
              | ok pr3 =>
                obtain ⟨tv2, ts4⟩ := pr3
                have hlv2 := parseTrivia_leaves opts _ _ _ htv2
                simp only [htv2]
                try dsimp only
                cases ts4 with
                | nil => rfl
                | cons w tsw =>
                  try dsimp only
                  by_cases hwb : (w.kind == TokenKind.rbrace) = true
                  · rw [if_pos hwb, if_pos hwb]
                    by_cases htc : opts.allowTrailingCommas = true
                    · rw [if_pos htc, if_pos htc]
                      try dsimp only
                      have hops : objectPropsToValue (JsonNode.prop pcs ::
                          (tv ++ JsonNode.leaf u :: (tv2 ++ [JsonNode.leaf w]))) =
                          .ok [nv] := by
                        rw [objectPropsToValue.eq_def]
                        try dsimp only
                        rw [hnv]
                        try dsimp only
                        rw [objectPropsToValue_trivia tv hlv, objectPropsToValue_leaf,
                          objectPropsToValue_trivia tv2 hlv2, objectPropsToValue_leaf,
                          objectPropsToValue_nil]
                      rw [hops]
                    · rw [if_neg htc, if_neg htc]
                      try rfl
                  · rw [if_neg hwb, if_neg hwb]
                    have hIH2 := parseObjectItemsV_eq fuel opts (w :: tsw)
                    rw [hIH2]
                    cases hit : parseObjectItems fuel opts (w :: tsw) with
                    | error e => simp [hit]
                    | ok pr4 =>
                      obtain ⟨items, ts6⟩ := pr4
                      simp only [hit]
                      try dsimp only
                      have hskip : objectPropsToValue (JsonNode.prop pcs ::
                          (tv ++ JsonNode.leaf u :: (tv2 ++ items))) =
                          (match objectPropsToValue items with
                           | .error e => .error e
                           | .ok ps => .ok (nv :: ps)) := by
                        rw [objectPropsToValue.eq_def]
                        try dsimp only
                        rw [hnv]
                        try dsimp only
                        rw [objectPropsToValue_trivia tv hlv, objectPropsToValue_leaf,
                          objectPropsToValue_trivia tv2 hlv2]
                      rw [hskip]
                      cases hops : objectPropsToValue items with
                      | error e => simp [hops]
                      | ok ps => simp [hops]
            · rw [if_neg huc, if_neg huc]
              by_cases hmc : opts.allowMissingCommas = true
              · rw [if_pos hmc, if_pos hmc]
                have hIH2 := parseObjectItemsV_eq fuel opts (u :: ts3)
                rw [hIH2]
                cases hit : parseObjectItems fuel opts (u :: ts3) with
                | error e => simp [hit]
                | ok pr4 =>
                  obtain ⟨items, ts6⟩ := pr4
                  simp only [hit]
                  try dsimp only
                  have hskip : objectPropsToValue
                      (JsonNode.prop pcs :: (tv ++ items)) =
                      (match objectPropsToValue items with
                       | .error e => .error e
                       | .ok ps => .ok (nv :: ps)) := by
                    rw [objectPropsToValue.eq_def]
                    try dsimp only
                    rw [hnv]
                    try dsimp only
                    rw [objectPropsToValue_trivia tv hlv]
                  rw [hskip]
                  cases hops : objectPropsToValue items with
                  | error e => simp [hops]
                  | ok ps => simp [hops]
              · rw [if_neg hmc, if_neg hmc]
                try rfl

theorem parsePropV_eq : ∀ (fuel : Nat) (opts : ParseOptions) (ts : List Token),
    parsePropV fuel opts ts =
      match parseProp fuel opts ts with
      | .error e => .error e
      | .ok (p, rest) =>
        match propEntry p with
        | .error e => .error e
        | .ok nv => .ok (nv, rest)
  | 0, opts, ts => by simp [parseProp, parsePropV]
  | fuel + 1, opts, [] => by simp [parseProp, parsePropV]
  | fuel + 1, opts, n :: ts => by
    rw [parsePropV.eq_3, parseProp.eq_3]
    by_cases hpn : isPropNameToken opts n = true
    · rw [if_pos hpn, if_pos hpn]
      cases htv1 : parseTrivia opts ts with
      | error e => simp [htv1]
      | ok pr =>
        obtain ⟨tv1, ts2⟩ := pr
        have hlv1 := parseTrivia_leaves opts _ _ _ htv1
        simp only [htv1]
        try dsimp only
        cases ts2 with
        | nil => rfl
        | cons cTok ts3 =>
          try dsimp only
          by_cases hcol : (cTok.kind == TokenKind.colon) = true
          · rw [if_pos hcol, if_pos hcol]
            cases htv2 : parseTrivia opts ts3 with
            | error e => simp [htv2]
            | ok pr2 =>
              obtain ⟨tv2, ts4⟩ := pr2
              have hlv2 := parseTrivia_leaves opts _ _ _ htv2
              simp only [htv2]
              try dsimp only
              have hIH := parseValueV_eq fuel opts ts4
              rw [hIH]
              cases hv : parseValue fuel opts ts4 with
              | error e => simp [hv]
              | ok pr3 =>
                obtain ⟨v0, ts5⟩ := pr3
                simp only [hv]
                try dsimp only
                have hsig := parseValue_significant fuel opts _ _ _ hv
                obtain ⟨hname, hncol⟩ := isPropNameToken_name_kind opts n hpn
                have hpe := propEntry_parsed n cTok tv1 tv2 v0 hname hncol hcol hlv1
                  hlv2 hsig
                rw [hpe]
                cases hnv : nodeToValue v0 with
                | error e => simp [hnv]
                | ok vv => simp [hnv]
          · rw [if_neg hcol, if_neg hcol]
            try rfl
    · rw [if_neg hpn, if_neg hpn]
      try rfl

theorem parseArrayItemsV_eq : ∀ (fuel : Nat) (opts : ParseOptions) (ts : List Token),
    parseArrayItemsV fuel opts ts =
      match parseArrayItems fuel opts ts with
      | .error e => .error e
      | .ok (ns, rest) =>
        match arrayElemsToValue ns with
        | .error e => .error e
        | .ok vs => .ok (vs, rest)
  | 0, opts, ts => by simp [parseArrayItems, parseArrayItemsV]
  | fuel + 1, opts, ts => by
    rw [parseArrayItemsV.eq_2, parseArrayItems.eq_2]
    have hIH := parseValueV_eq fuel opts ts
    rw [hIH]
    cases hv : parseValue fuel opts ts with
    | error e => simp [hv]
    | ok pr =>
      obtain ⟨v0, ts1⟩ := pr
      simp only [hv]
      try dsimp only
      have hsig := parseValue_significant fuel opts _ _ _ hv
      obtain ⟨val, hval⟩ := parseValue_conv fuel opts _ _ _ hv
      rw [hval]
      try dsimp only
      cases htv : parseTrivia opts ts1 with
      | error e => simp [htv]
      | ok pr2 =>
        obtain ⟨tv, ts2⟩ := pr2
        have hlv := parseTrivia_leaves opts _ _ _ htv
        simp only [htv]
        try dsimp only
        cases ts2 with
        | nil => rfl
        | cons u ts3 =>
          try dsimp only
          by_cases hub : (u.kind == TokenKind.rbracket) = true
          · rw [if_pos hub, if_pos hub]
            have hus : isSignificantValue (JsonNode.leaf u) = false := by
              simp only [beq_iff_eq] at hub
              exact notSignificant_of_kind u (Or.inr (Or.inr hub))
            have hops : arrayElemsToValue (v0 :: (tv ++ [JsonNode.leaf u])) =
                .ok [val] := by
              rw [arrayElemsToValue.eq_def]
              try dsimp only
              simp only [hsig, hval]
              try dsimp only
              rw [arrayElemsToValue_trivia tv hlv, arrayElemsToValue_skip _ hus,
                arrayElemsToValue_nil]
              simp
            try dsimp only
            rw [hops]
          · rw [if_neg hub, if_neg hub]
            by_cases huc : (u.kind == TokenKind.comma) = true
            · rw [if_pos huc, if_pos huc]
              have hus : isSignificantValue (JsonNode.leaf u) = false := by
                simp only [beq_iff_eq] at huc
                exact notSignificant_of_kind u (Or.inl huc)
              cases htv2 : parseTrivia opts ts3 with
              | error e => simp [htv2]
              | ok pr3 =>
                obtain ⟨tv2, ts4⟩ := pr3
                have hlv2 := parseTrivia_leaves opts _ _ _ htv2
                simp only [htv2]
                try dsimp only
                cases ts4 with
                | nil => rfl
                | cons w tsw =>
                  try dsimp only
                  by_cases hwb : (w.kind == TokenKind.rbracket) = true
                  · rw [if_pos hwb, if_pos hwb]
                    have hws : isSignificantValue (JsonNode.leaf w) = false := by
                      simp only [beq_iff_eq] at hwb
                      exact notSignificant_of_kind w (Or.inr (Or.inr hwb))
                    by_cases htc : opts.allowTrailingCommas = true
                    · rw [if_pos htc, if_pos htc]
                      try dsimp only
                      have hops : arrayElemsToValue (v0 ::
                          (tv ++ JsonNode.leaf u :: (tv2 ++ [JsonNode.leaf w]))) =
                          .ok [val] := by
                        rw [arrayElemsToValue.eq_def]
                        try dsimp only
                        simp only [hsig, hval]
                        try dsimp only
                        rw [arrayElemsToValue_trivia tv hlv, arrayElemsToValue_skip _ hus,
                          arrayElemsToValue_trivia tv2 hlv2, arrayElemsToValue_skip _ hws,
                          arrayElemsToValue_nil]
                        simp
                      rw [hops]
                    · rw [if_neg htc, if_neg htc]
                      try rfl
                  · rw [if_neg hwb, if_neg hwb]
                    have hIH2 := parseArrayItemsV_eq fuel opts (w :: tsw)
                    rw [hIH2]
                    cases hit : parseArrayItems fuel opts (w :: tsw) with
                    | error e => simp [hit]
                    | ok pr4 =>
                      obtain ⟨items, ts6⟩ := pr4
                      simp only [hit]
                      try dsimp only
                      have hskip : arrayElemsToValue (v0 ::
                          (tv ++ JsonNode.leaf u :: (tv2 ++ items))) =
                          (match arrayElemsToValue items with
                           | .error e => .error e
                           | .ok vs => .ok (val :: vs)) := by
                        rw [arrayElemsToValue.eq_def]
                        try dsimp only
                        simp only [hsig, hval]
                        try dsimp only
                        rw [arrayElemsToValue_trivia tv hlv, arrayElemsToValue_skip _ hus,
                          arrayElemsToValue_trivia tv2 hlv2]
                        simp
                      rw [hskip]
                      cases hops : arrayElemsToValue items with
                      | error e => simp [hops]
                      | ok vs => simp [hops]
            · rw [if_neg huc, if_neg huc]
              by_cases hmc : opts.allowMissingCommas = true
              · rw [if_pos hmc, if_pos hmc]
                have hIH2 := parseArrayItemsV_eq fuel opts (u :: ts3)
                rw [hIH2]
                cases hit : parseArrayItems fuel opts (u :: ts3) with
                | error e => simp [hit]
                | ok pr4 =>
                  obtain ⟨items, ts6⟩ := pr4
                  simp only [hit]
                  try dsimp only
                  have hskip : arrayElemsToValue (v0 :: (tv ++ items)) =
                      (match arrayElemsToValue items with
                       | .error e => .error e
                       | .ok vs => .ok (val :: vs)) := by
                    rw [arrayElemsToValue.eq_def]
                    try dsimp only
                    simp only [hsig, hval]
                    try dsimp only
                    rw [arrayElemsToValue_trivia tv hlv]
                    simp
                  rw [hskip]
                  cases hops : arrayElemsToValue items with
                  | error e => simp [hops]
                  | ok vs => simp [hops]
              · rw [if_neg hmc, if_neg hmc]
                try rfl

end



theorem firstSignificantValue_skip (n : JsonNode) (h : isSignificantValue n = false)
    (ns : List JsonNode) : firstSignificantValue (n :: ns) = firstSignificantValue ns := by
  rw [firstSignificantValue.eq_def]
  dsimp only
  rw [h]
  simp

theorem firstSignificantValue_trivia (tv : List JsonNode) (h : allTriviaLeaves tv = true) :
    ∀ ns, firstSignificantValue (tv ++ ns) = firstSignificantValue ns := by
  induction tv with
  | nil => intro ns; rfl
  | cons n tv ih =>
    intro ns
    rw [allTriviaLeaves] at h
    obtain ⟨h1, h2⟩ := Bool.and_eq_true_iff.mp h
    match n, h1 with
    | .leaf t, h1 =>
      have hsig := (isTriviaToken_not_significant t h1).1
      rw [List.cons_append, firstSignificantValue_skip _ hsig, ih h2]

theorem firstSignificantValue_cons_sig (n : JsonNode) (h : isSignificantValue n = true)
    (ns : List JsonNode) : firstSignificantValue (n :: ns) = some n := by
  rw [firstSignificantValue.eq_def]
  dsimp only
  rw [h]
  simp

theorem parseRootV_eq (opts : ParseOptions) (ts : List Token) :
    parseRootV opts ts =
      match parseRoot opts ts with
      | .error e => .error e
      | .ok root => rootToValue root := by
  unfold parseRootV parseRoot
  cases htv : parseTrivia opts ts with
  | error e => simp [htv]
  | ok pr =>
    obtain ⟨tv1, ts1⟩ := pr
    have hlv1 := parseTrivia_leaves opts _ _ _ htv
    simp only [htv]
    try dsimp only
    cases ts1 with
    | nil =>
      have hfs : firstSignificantValue tv1 = none := by
        have := firstSignificantValue_trivia tv1 hlv1 []
        simpa using this
      simp [rootToValue, rootValue, hfs]
    | cons t1 ts1' =>
      try dsimp only
      rw [parseValueV_eq]
      cases hv : parseValue (3 * ts.length + 3) opts (t1 :: ts1') with
      | error e => simp [hv]
      | ok pr2 =>
        obtain ⟨v0, ts2⟩ := pr2
        simp only [hv]
        try dsimp only
        have hsig := parseValue_significant _ opts _ _ _ hv
        obtain ⟨val, hval⟩ := parseValue_conv _ opts _ _ _ hv
        rw [hval]
        try dsimp only
        cases htv2 : parseTrivia opts ts2 with
        | error e => simp [htv2]
        | ok pr3 =>
          obtain ⟨tv2, ts3⟩ := pr3
          have hlv2 := parseTrivia_leaves opts _ _ _ htv2
          simp only [htv2]
          try dsimp only
          cases ts3 with
          | nil =>
            have hfs : firstSignificantValue (tv1 ++ v0 :: tv2) = some v0 := by
              rw [firstSignificantValue_trivia tv1 hlv1,
                firstSignificantValue_cons_sig v0 hsig]
            simp [rootToValue, rootValue, hfs, hval]
          | cons t3 ts3' => rfl

/-- C3: for every text and options, `parseToValue(text, opts)` returns a value
identical to `toValue(parse(text, opts).value())`: the fused pipeline and the
parse-then-convert pipeline are semantically equal. -/
theorem parseToValue_eq_parse_then_toValue : ∀ (text : List Char) (opts : ParseOptions),
    parseToValue text opts = (parse text opts).bind rootToValue := by
  intro text opts
  unfold parseToValue parse
  cases hscan : scan opts text with
  | error e => rfl
  | ok ts =>
    dsimp only
    rw [parseRootV_eq]
    cases hp : parseRoot opts ts with
    | error e => rfl
    | ok root => rfl


/-- Translated from src/mod.ts (`ParseStrictOptions`) and the spec (§6): the
partial option mapping accepted by every entry point; a `none` field is an
absent key. -/
structure PartialParseOptions where
  allowComments : Option Bool
  allowTrailingCommas : Option Bool
  allowLooseObjectPropertyNames : Option Bool
  allowMissingCommas : Option Bool
  allowSingleQuotedStrings : Option Bool
  allowHexadecimalNumbers : Option Bool
  allowUnaryPlusNumbers : Option Bool
deriving DecidableEq

/-- The empty option mapping (no key present). -/
def noOptions : PartialParseOptions := ⟨none, none, none, none, none, none, none⟩

/-- Modelled from the spec (§6): the permissive entry points default every
extension flag to `true`, merging a partial mapping over those defaults. -/
def resolvePermissive (o : PartialParseOptions) : ParseOptions :=
  ⟨o.allowComments.getD true, o.allowTrailingCommas.getD true,
    o.allowLooseObjectPropertyNames.getD true, o.allowMissingCommas.getD true,
    o.allowSingleQuotedStrings.getD true, o.allowHexadecimalNumbers.getD true,
    o.allowUnaryPlusNumbers.getD true⟩

/-- Translated from src/mod.ts: `STRICT_DEFAULTS` (every extension disabled). -/
def STRICT_DEFAULTS : ParseOptions :=
  ⟨false, false, false, false, false, false, false⟩

/-- Translated from src/mod.ts: the spread merge of the caller's partial
options over `STRICT_DEFAULTS`: a present key overrides, an absent key falls
back to `false`. -/
def resolveStrict (o : PartialParseOptions) : ParseOptions :=
  ⟨o.allowComments.getD STRICT_DEFAULTS.allowComments,
    o.allowTrailingCommas.getD STRICT_DEFAULTS.allowTrailingCommas,
    o.allowLooseObjectPropertyNames.getD STRICT_DEFAULTS.allowLooseObjectPropertyNames,
    o.allowMissingCommas.getD STRICT_DEFAULTS.allowMissingCommas,
    o.allowSingleQuotedStrings.getD STRICT_DEFAULTS.allowSingleQuotedStrings,
    o.allowHexadecimalNumbers.getD STRICT_DEFAULTS.allowHexadecimalNumbers,
    o.allowUnaryPlusNumbers.getD STRICT_DEFAULTS.allowUnaryPlusNumbers⟩

/-- Modelled from the spec (§6): the permissive `parse` entry point. -/
def parsePermissive (text : List Char) (o : PartialParseOptions) :
    Except JsoncError RootNode :=
  parse text (resolvePermissive o)

/-- Modelled from the spec (§6): the permissive `parseToValue` entry point. -/
def parseToValuePermissive (text : List Char) (o : PartialParseOptions) :
    Except JsoncError JsonValue :=
  parseToValue text (resolvePermissive o)

/-- Translated from src/mod.ts: `parseStrict`. -/
def parseStrict (text : List Char) (o : PartialParseOptions) :
    Except JsoncError RootNode :=
  parse text (resolveStrict o)

/-- Translated from src/mod.ts: `parseToValueStrict`. -/
def parseToValueStrict (text : List Char) (o : PartialParseOptions) :
    Except JsoncError JsonValue :=
  parseToValue text (resolveStrict o)

def inputStrictComment : List Char := String.toList ("\x7b // c\n\x7d")

/-- The partial mapping that only enables comments. -/
def onlyCommentsOptions : PartialParseOptions :=
  ⟨some true, none, none, none, none, none, none⟩

/-- C2: `parse`/`parseToValue` default every extension flag to true, the
strict entry points default every flag to false, every entry point merges a
partial mapping over its defaults; `parseStrict("\x7b // c\n\x7d")` fails
with a SyntaxError while the same call with `allowComments: true` succeeds. -/
theorem option_defaults_and_strict_rejection :
    resolvePermissive noOptions = allTrueOptions ∧
    resolveStrict noOptions = STRICT_DEFAULTS ∧
    (∀ o : PartialParseOptions, resolvePermissive o =
      ⟨o.allowComments.getD true, o.allowTrailingCommas.getD true,
        o.allowLooseObjectPropertyNames.getD true, o.allowMissingCommas.getD true,
        o.allowSingleQuotedStrings.getD true, o.allowHexadecimalNumbers.getD true,
        o.allowUnaryPlusNumbers.getD true⟩) ∧
    (∀ o : PartialParseOptions, resolveStrict o =
      ⟨o.allowComments.getD false, o.allowTrailingCommas.getD false,
        o.allowLooseObjectPropertyNames.getD false, o.allowMissingCommas.getD false,
        o.allowSingleQuotedStrings.getD false, o.allowHexadecimalNumbers.getD false,
        o.allowUnaryPlusNumbers.getD false⟩) ∧
    (∀ text o, parsePermissive text o = parse text (resolvePermissive o)) ∧
    (∀ text o, parseToValuePermissive text o = parseToValue text (resolvePermissive o)) ∧
    (∀ text o, parseStrict text o = parse text (resolveStrict o)) ∧
    (∀ text o, parseToValueStrict text o = parseToValue text (resolveStrict o)) ∧
    parseStrict inputStrictComment noOptions =
      .error (.syntaxError msgCommentsNotAllowed) ∧
    (parseStrict inputStrictComment onlyCommentsOptions).isOk = true := by
  refine ⟨rfl, rfl, fun o => rfl, fun o => rfl, fun text o => rfl, fun text o => rfl,
    fun text o => rfl, fun text o => rfl, rfl, by decide⟩

/-- A JavaScript value as far as option merging is concerned: `undefined` or a
boolean (the only values option objects hold). -/
inductive JSValue where
  | undef
  | bool (b : Bool)
deriving DecidableEq

/-- A JavaScript object literal: its ordered own properties. -/
def jsGet : List (String × JSValue) → String → Option JSValue
  | [], _ => none
  | (k2, v) :: rest, k => if k2 == k then some v else jsGet rest k

/-- Translated from src/mod.ts: the `STRICT_DEFAULTS` object literal. -/
def STRICT_DEFAULTS_OBJ : List (String × JSValue) :=
  [("allowComments", .bool false), ("allowTrailingCommas", .bool false),
    ("allowLooseObjectPropertyNames", .bool false), ("allowMissingCommas", .bool false),
    ("allowSingleQuotedStrings", .bool false), ("allowHexadecimalNumbers", .bool false),
    ("allowUnaryPlusNumbers", .bool false)]

/-- JavaScript object spread of `b` over `a`: `a`'s own properties, each
overridden by `b`'s value when the key is present in `b` (even when that
value is `undefined`), followed by `b`'s new properties. -/
def spreadMerge (a b : List (String × JSValue)) : List (String × JSValue) :=
  a.map (fun kv => (kv.1, (jsGet b kv.1).getD kv.2)) ++
    b.filter (fun kv => (jsGet a kv.1).isNone)

/-- Translated from src/mod.ts: the options object `parseStrict` and
`parseToValueStrict` forward to the core parse. -/
def strictForwardedOptions (o : List (String × JSValue)) : List (String × JSValue) :=
  spreadMerge STRICT_DEFAULTS_OBJ o

def strictFlagKeys : List String :=
  ["allowComments", "allowTrailingCommas", "allowLooseObjectPropertyNames",
    "allowMissingCommas", "allowSingleQuotedStrings", "allowHexadecimalNumbers",
    "allowUnaryPlusNumbers"]

/-- C10: the options `parseStrict`/`parseToValueStrict` forward are the spread
merge over STRICT_DEFAULTS, so a flag key present with value `undefined` is
forwarded as `undefined` rather than the strict default `false`: explicitly
passing `undefined` is not equivalent to omitting the key. -/
theorem strict_spread_forwards_undefined (o : List (String × JSValue)) (k : String)
    (hk : k ∈ strictFlagKeys) (ho : jsGet o k = some .undef) :
    jsGet (strictForwardedOptions o) k = some .undef ∧
      some JSValue.undef ≠ some (JSValue.bool false) := by
  refine ⟨?_, by decide⟩
  simp only [strictFlagKeys, List.mem_cons, List.mem_nil_iff, or_false] at hk
  rcases hk with rfl | rfl | rfl | rfl | rfl | rfl | rfl <;>
    simp [strictForwardedOptions, spreadMerge, STRICT_DEFAULTS_OBJ, jsGet, ho]

/-- Witness for C10 at the concrete object `\x7b allowComments: undefined \x7d`. -/
theorem strict_spread_forwards_undefined_witness :
    jsGet (strictForwardedOptions [("allowComments", JSValue.undef)])
        ("allowComments") = some JSValue.undef ∧
      some JSValue.undef ≠ some (JSValue.bool false) :=
  strict_spread_forwards_undefined [("allowComments", JSValue.undef)]
    ("allowComments") (by decide) (by decide)


def lbraceTok : Token := ⟨.lbrace, [lbraceChar]⟩

def rbraceTok : Token := ⟨.rbrace, [rbraceChar]⟩

def lbracketTok : Token := ⟨.lbracket, ['[']⟩

def rbracketTok : Token := ⟨.rbracket, [']']⟩

def commaTok : Token := ⟨.comma, [',']⟩

def spaceTok : Token := ⟨.whitespace, [' ']⟩

/-- Modelled from the spec (§4.4): a freshly synthesized empty object `\x7b\x7d`. -/
def emptyObjectNode : JsonNode := .object [.leaf lbraceTok, .leaf rbraceTok]

/-- Modelled from the spec (§4.4): a freshly synthesized empty array `[]`. -/
def emptyArrayNode : JsonNode := .array [.leaf lbracketTok, .leaf rbracketTok]

def isObjectNode : JsonNode → Bool
  | .object _ => true
  | _ => false

def isArrayNode : JsonNode → Bool
  | .array _ => true
  | _ => false

/-- Modelled from the spec (§4.4 force-coerce): walk to the first significant
value child; keep it when it already has the wanted kind, otherwise replace it
in place with the freshly synthesized node; with no value present, insert the
fresh node. -/
def forceValueInChildren (want : JsonNode → Bool) (fresh : JsonNode) :
    List JsonNode → List JsonNode
  | [] => [fresh]
  | n :: ns =>
    if isSignificantValue n then
      if want n then n :: ns else fresh :: ns
    else n :: forceValueInChildren want fresh ns

/-- Modelled from the spec (§4.4): `asObjectOrForce()` on the root. -/
def RootNode.asObjectOrForce (r : RootNode) : RootNode :=
  ⟨forceValueInChildren isObjectNode emptyObjectNode r.children⟩

/-- Modelled from the spec (§4.4): `asArrayOrForce()` on the root. -/
def RootNode.asArrayOrForce (r : RootNode) : RootNode :=
  ⟨forceValueInChildren isArrayNode emptyArrayNode r.children⟩

theorem forceValueInChildren_already (want : JsonNode → Bool) (fresh : JsonNode) :
    ∀ (cs : List JsonNode) (n : JsonNode), firstSignificantValue cs = some n →
      want n = true → forceValueInChildren want fresh cs = cs := by
  intro cs
  induction cs with
  | nil => intro n h _; simp [firstSignificantValue] at h
  | cons m ms ih =>
    intro n h hw
    by_cases hs : isSignificantValue m = true
    · rw [firstSignificantValue_cons_sig m hs] at h
      injection h with h2
      subst h2
      rw [forceValueInChildren.eq_def]
      dsimp only
      rw [hs, hw]
      simp
    · have hs2 : isSignificantValue m = false := by
        cases hx : isSignificantValue m
        · rfl
        · exact absurd hx hs
      rw [firstSignificantValue_skip m hs2] at h
      rw [forceValueInChildren.eq_def]
      dsimp only
      rw [hs2]
      simp [ih n h hw]

theorem forceValueInChildren_replaces (want : JsonNode → Bool) (fresh : JsonNode)
    (hf : isSignificantValue fresh = true) :
    ∀ (cs : List JsonNode) (n : JsonNode), firstSignificantValue cs = some n →
      want n = false →
      firstSignificantValue (forceValueInChildren want fresh cs) = some fresh := by
  intro cs
  induction cs with
  | nil => intro n h _; simp [firstSignificantValue] at h
  | cons m ms ih =>
    intro n h hw
    by_cases hs : isSignificantValue m = true
    · rw [firstSignificantValue_cons_sig m hs] at h
      injection h with h2
      subst h2
      rw [forceValueInChildren.eq_def]
      dsimp only
      rw [hs, hw]
      simp [firstSignificantValue_cons_sig fresh hf]
    · have hs2 : isSignificantValue m = false := by
        cases hx : isSignificantValue m
        · rfl
        · exact absurd hx hs
      rw [firstSignificantValue_skip m hs2] at h
      rw [forceValueInChildren.eq_def]
      dsimp only
      rw [hs2]
      simp only [Bool.false_eq_true, if_false]
      rw [firstSignificantValue_skip m hs2]
      exact ih n h hw

def inputNullDoc : List Char := String.toList ("null")

/-- C4: `asObjectOrForce()` / `asArrayOrForce()` return the value unchanged
when it already has the wanted kind and otherwise replace it in place with a
freshly synthesized empty `\x7b\x7d` / `[]`; parsing `"null"` and forcing
makes `toString()` produce `"\x7b\x7d"` / `"[]"`. -/
theorem asOrForce_spec :
    (∀ (r : RootNode) (n : JsonNode), rootValue r = some n → isObjectNode n = true →
      r.asObjectOrForce = r) ∧
    (∀ (r : RootNode) (n : JsonNode), rootValue r = some n → isObjectNode n = false →
      rootValue r.asObjectOrForce = some emptyObjectNode) ∧
    (∀ (r : RootNode) (n : JsonNode), rootValue r = some n → isArrayNode n = true →
      r.asArrayOrForce = r) ∧
    (∀ (r : RootNode) (n : JsonNode), rootValue r = some n → isArrayNode n = false →
      rootValue r.asArrayOrForce = some emptyArrayNode) ∧
    (parse inputNullDoc allTrueOptions).map
        (fun r => r.asObjectOrForce.serialize) = .ok [lbraceChar, rbraceChar] ∧
    (parse inputNullDoc allTrueOptions).map
        (fun r => r.asArrayOrForce.serialize) = .ok ['[', ']'] := by
  refine ⟨?_, ?_, ?_, ?_, rfl, rfl⟩
  · intro r n h hw
    show (⟨forceValueInChildren isObjectNode emptyObjectNode r.children⟩ : RootNode) = r
    rw [forceValueInChildren_already isObjectNode emptyObjectNode r.children n h hw]
  · intro r n h hw
    show firstSignificantValue (forceValueInChildren isObjectNode emptyObjectNode
      r.children) = some emptyObjectNode
    exact forceValueInChildren_replaces isObjectNode emptyObjectNode rfl
      r.children n h hw
  · intro r n h hw
    show (⟨forceValueInChildren isArrayNode emptyArrayNode r.children⟩ : RootNode) = r
    rw [forceValueInChildren_already isArrayNode emptyArrayNode r.children n h hw]
  · intro r n h hw
    show firstSignificantValue (forceValueInChildren isArrayNode emptyArrayNode
      r.children) = some emptyArrayNode
    exact forceValueInChildren_replaces isArrayNode emptyArrayNode rfl
      r.children n h hw

/-- Witness for C4: forcing on a root that already holds an object keeps it,
and forcing on the parsed `"null"` document synthesizes the empty containers. -/
theorem asOrForce_spec_witness :
    (RootNode.mk [emptyObjectNode]).asObjectOrForce = ⟨[emptyObjectNode]⟩ ∧
      rootValue (RootNode.mk [emptyArrayNode]).asObjectOrForce =
        some emptyObjectNode :=
  ⟨asOrForce_spec.1 ⟨[emptyObjectNode]⟩ emptyObjectNode rfl rfl,
    asOrForce_spec.2.1 ⟨[emptyArrayNode]⟩ emptyArrayNode rfl rfl⟩

def containsCRLF : List Char → Bool
  | [] => false
  | '\r' :: '\n' :: _ => true
  | _ :: rest => containsCRLF rest

def newlineCRLF : List Char := ['\r', '\n']

def newlineLF : List Char := ['\n']

/-- Modelled from the spec (§4.4/§6): `newlineKind()`: `"\r\n"` when any CRLF
appears in the document text, else `"\n"`. -/
def RootNode.newlineKind (r : RootNode) : List Char :=
  if containsCRLF r.serialize then newlineCRLF else newlineLF

theorem containsCRLF_iff : ∀ (cs : List Char),
    containsCRLF cs = true ↔ ∃ l r, cs = l ++ '\r' :: '\n' :: r := by
  intro cs
  induction cs using containsCRLF.induct with
  | case1 =>
    simp [containsCRLF]
  | case2 rest =>
    rw [containsCRLF.eq_def]
    simp only [true_iff]
    exact ⟨[], rest, rfl⟩
  | case3 c rest hne ih =>
    rw [containsCRLF.eq_def]
    try dsimp only
    split
    · rename_i heq
      exact List.noConfusion heq
    · rename_i tail heq
      injection heq with h1 h2
      subst h1
      subst h2
      simp only [true_iff]
      exact ⟨[], tail, rfl⟩
    · rename_i hd rest2 hne2 heq
      injection heq with h1 h2
      subst h1
      subst h2
      constructor
      · intro hx
        obtain ⟨l, r, hrest⟩ := ih.mp hx
        exact ⟨c :: l, r, by rw [hrest]; rfl⟩
      · rintro ⟨l, r, hlr⟩
        match l, hlr with
        | [], hlr =>
          exfalso
          injection hlr with h1 h2
          exact hne r h1 h2
        | x :: l2, hlr =>
          injection hlr with h1 h2
          exact ih.mpr ⟨l2, r, h2⟩

/-- C8: `newlineKind()` returns exactly one of `"\n"` and `"\r\n"`, and it
returns `"\r\n"` precisely when a CRLF appears in the document text. -/
theorem newlineKind_spec : ∀ (r : RootNode),
    (r.newlineKind = newlineCRLF ∨ r.newlineKind = newlineLF) ∧
      (r.newlineKind = newlineCRLF ↔ ∃ l s, r.serialize = l ++ '\r' :: '\n' :: s) := by
  intro r
  constructor
  · by_cases h : containsCRLF r.serialize = true
    · exact Or.inl (by simp [RootNode.newlineKind, h])
    · exact Or.inr (by simp [RootNode.newlineKind, h])
  · rw [← containsCRLF_iff]
    by_cases h : containsCRLF r.serialize = true
    · simp [RootNode.newlineKind, h]
    · simp [RootNode.newlineKind, h, newlineCRLF, newlineLF]


def isNewlineNode : JsonNode → Bool
  | .leaf t => t.kind == .newline
  | _ => false

def isCommaNode : JsonNode → Bool
  | .leaf t => t.kind == .comma
  | _ => false

/-- Modelled from the spec (§4.4): a container is multiline when a newline
occurs among its children. -/
def isMultilineChildren (cs : List JsonNode) : Bool := cs.any isNewlineNode

def containsSignificant (cs : List JsonNode) : Bool := cs.any isSignificantValue

/-- Whether a comma already follows the last significant child. -/
def hasTrailingCommaChildren : List JsonNode → Bool
  | [] => false
  | n :: ns =>
    if containsSignificant ns then hasTrailingCommaChildren ns
    else if isSignificantValue n then ns.any isCommaNode
    else false

/-- Modelled from the spec (§4.4): insert exactly one comma right after the
last significant child when none follows it yet. -/
def addTrailingCommaChildren : List JsonNode → List JsonNode
  | [] => []
  | n :: ns =>
    if containsSignificant ns then n :: addTrailingCommaChildren ns
    else if isSignificantValue n then
      if ns.any isCommaNode then n :: ns else n :: .leaf commaTok :: ns
    else n :: ns

def removeFirstCommaNode : List JsonNode → List JsonNode
  | [] => []
  | n :: ns => if isCommaNode n then ns else n :: removeFirstCommaNode ns

/-- Modelled from the spec (§4.4): remove the comma that follows the last
significant child. -/
def removeTrailingCommaChildren : List JsonNode → List JsonNode
  | [] => []
  | n :: ns =>
    if containsSignificant ns then n :: removeTrailingCommaChildren ns
    else if isSignificantValue n then n :: removeFirstCommaNode ns
    else n :: ns

/-- Modelled from the spec (§4.4): `setTrailingCommas(b)` on a container's
children: adding happens only when the container is multiline. -/
def setTrailingCommasChildren (b : Bool) (cs : List JsonNode) : List JsonNode :=
  if b then
    if isMultilineChildren cs then addTrailingCommaChildren cs else cs
  else removeTrailingCommaChildren cs

def setTrailingCommasNode (b : Bool) : JsonNode → JsonNode
  | .array cs => .array (setTrailingCommasChildren b cs)
  | .object cs => .object (setTrailingCommasChildren b cs)
  | n => n

def mapRootValue (f : JsonNode → JsonNode) : List JsonNode → List JsonNode
  | [] => []
  | n :: ns => if isSignificantValue n then f n :: ns else n :: mapRootValue f ns

/-- Modelled from the spec (§4.4): `setTrailingCommas(b)` on the root's value
container. -/
def RootNode.setTrailingCommas (r : RootNode) (b : Bool) : RootNode :=
  ⟨mapRootValue (setTrailingCommasNode b) r.children⟩

theorem removeFirstCommaNode_id : ∀ (ns : List JsonNode), ns.any isCommaNode = false →
    removeFirstCommaNode ns = ns := by
  intro ns
  induction ns with
  | nil => intro _; rfl
  | cons n ns ih =>
    intro h
    simp only [List.any_cons, Bool.or_eq_false_iff] at h
    rw [removeFirstCommaNode.eq_def]
    dsimp only
    rw [h.1]
    simp [ih h.2]

theorem containsSignificant_add : ∀ (cs : List JsonNode),
    containsSignificant (addTrailingCommaChildren cs) = containsSignificant cs := by
  intro cs
  induction cs with
  | nil => rfl
  | cons n ns ih =>
    rw [addTrailingCommaChildren.eq_def]
    dsimp only
    by_cases h1 : containsSignificant ns = true
    · rw [h1]
      simp only [if_true]
      simp [containsSignificant, List.any_cons] at ih ⊢
      simp [containsSignificant] at h1
      simp [ih, h1]
    · have h1f : containsSignificant ns = false := by
        cases hx : containsSignificant ns
        · rfl
        · exact absurd hx h1
      rw [h1f]
      simp only [Bool.false_eq_true, if_false]
      by_cases h2 : isSignificantValue n = true
      · rw [h2]
        simp only [if_true]
        by_cases h3 : ns.any isCommaNode = true
        · rw [h3]
          simp
        · have h3f : ns.any isCommaNode = false := by
            cases hx : ns.any isCommaNode
            · rfl
            · exact absurd hx h3
          rw [h3f]
          simp [containsSignificant, List.any_cons, h2, isCommaNode, isSignificantValue, commaTok]
      · have h2f : isSignificantValue n = false := by
          cases hx : isSignificantValue n
          · rfl
          · exact absurd hx h2
        rw [h2f]
        simp

theorem removeTrailingCommaChildren_id : ∀ (cs : List JsonNode),
    hasTrailingCommaChildren cs = false → removeTrailingCommaChildren cs = cs := by
  intro cs
  induction cs with
  | nil => intro _; rfl
  | cons n ns ih =>
    intro h
    rw [hasTrailingCommaChildren.eq_def] at h
    dsimp only at h
    rw [removeTrailingCommaChildren.eq_def]
    dsimp only
    by_cases h1 : containsSignificant ns = true
    · rw [h1] at h ⊢
      simp only [if_true] at h ⊢
      rw [ih h]
    · have h1f : containsSignificant ns = false := by
        cases hx : containsSignificant ns
        · rfl
        · exact absurd hx h1
      rw [h1f] at h ⊢
      simp only [Bool.false_eq_true, if_false] at h ⊢
      by_cases h2 : isSignificantValue n = true
      · rw [h2] at h ⊢
        simp only [if_true] at h ⊢
        rw [removeFirstCommaNode_id ns h]
      · have h2f : isSignificantValue n = false := by
          cases hx : isSignificantValue n
          · rfl
          · exact absurd hx h2
        rw [h2f]
        simp

theorem remove_add_trailing : ∀ (cs : List JsonNode),
    hasTrailingCommaChildren cs = false →
    removeTrailingCommaChildren (addTrailingCommaChildren cs) = cs := by
  intro cs
  induction cs with
  | nil => intro _; rfl
  | cons n ns ih =>
    intro h
    rw [hasTrailingCommaChildren.eq_def] at h
    dsimp only at h
    rw [addTrailingCommaChildren.eq_def]
    dsimp only
    by_cases h1 : containsSignificant ns = true
    · rw [h1] at h ⊢
      simp only [if_true] at h ⊢
      rw [removeTrailingCommaChildren.eq_def]
      dsimp only
      rw [containsSignificant_add ns, h1]
      simp only [if_true]
      rw [ih h]
    · have h1f : containsSignificant ns = false := by
        cases hx : containsSignificant ns
        · rfl
        · exact absurd hx h1
      rw [h1f] at h ⊢
      simp only [Bool.false_eq_true, if_false] at h ⊢
      by_cases h2 : isSignificantValue n = true
      · rw [h2] at h ⊢
        simp only [if_true] at h ⊢
        rw [h]
        simp only [Bool.false_eq_true, if_false]
        rw [removeTrailingCommaChildren.eq_def]
        dsimp only
        have hcs : containsSignificant (JsonNode.leaf commaTok :: ns) = false := by
          simp [containsSignificant, List.any_cons, isSignificantValue, commaTok]
          simp [containsSignificant] at h1f
          exact h1f
        rw [hcs]
        simp only [Bool.false_eq_true, if_false]
        rw [h2]
        simp only [if_true]
        rw [removeFirstCommaNode.eq_def]
        dsimp only
        have : isCommaNode (JsonNode.leaf commaTok) = true := rfl
        rw [this]
        simp
      · have h2f : isSignificantValue n = false := by
          cases hx : isSignificantValue n
          · rfl
          · exact absurd hx h2
        rw [h2f]
        simp only [Bool.false_eq_true, if_false]
        rw [removeTrailingCommaChildren.eq_def]
        dsimp only
        rw [h1f, h2f]
        simp

def inputArrOneTwo : List Char := String.toList ("[\n  1,\n  2\n]")

def inputArrOneTwoTrailing : List Char := String.toList ("[\n  1,\n  2,\n]")

/-- C7: on a multiline container `setTrailingCommas(true)` adds exactly one
trailing comma after the last significant child and `setTrailingCommas(false)`
removes it again (a round trip); single-line containers never get trailing
commas.  Concretely, from `"[\n  1,\n  2\n]"` toggling on yields
`"[\n  1,\n  2,\n]"` and toggling off restores the input. -/
theorem setTrailingCommas_spec :
    (∀ cs : List JsonNode, isMultilineChildren cs = false →
      setTrailingCommasChildren true cs = cs) ∧
    (∀ cs : List JsonNode, hasTrailingCommaChildren cs = false →
      setTrailingCommasChildren false (setTrailingCommasChildren true cs) = cs) ∧
    (parse inputArrOneTwo allTrueOptions).map
        (fun r => (r.setTrailingCommas true).serialize) = .ok inputArrOneTwoTrailing ∧
    (parse inputArrOneTwo allTrueOptions).map
        (fun r => ((r.setTrailingCommas true).setTrailingCommas false).serialize) =
      .ok inputArrOneTwo := by
  refine ⟨?_, ?_, rfl, rfl⟩
  · intro cs h
    simp [setTrailingCommasChildren, h]
  · intro cs h
    by_cases hm : isMultilineChildren cs = true
    · simp only [setTrailingCommasChildren, if_true, hm]
      exact remove_add_trailing cs h
    · have hmf : isMultilineChildren cs = false := by
        cases hx : isMultilineChildren cs
        · rfl
        · exact absurd hx hm
      simp only [setTrailingCommasChildren, hmf, Bool.false_eq_true, if_false, if_true]
      exact removeTrailingCommaChildren_id cs h

/-- Witness for C7: the round trip on the children of the array parsed from
the concrete multiline document, and the single-line guarantee on `[1]`. -/
theorem setTrailingCommas_spec_witness :
    setTrailingCommasChildren true
        [JsonNode.leaf lbracketTok, .leaf ⟨.numberLit, ['1']⟩, .leaf rbracketTok] =
      [JsonNode.leaf lbracketTok, .leaf ⟨.numberLit, ['1']⟩, .leaf rbracketTok] ∧
    setTrailingCommasChildren false (setTrailingCommasChildren true
        [JsonNode.leaf lbracketTok, .leaf ⟨.numberLit, ['1']⟩, .leaf rbracketTok]) =
      [JsonNode.leaf lbracketTok, .leaf ⟨.numberLit, ['1']⟩, .leaf rbracketTok] :=
  ⟨setTrailingCommas_spec.1 _ rfl, setTrailingCommas_spec.2.1 _ rfl⟩


def escapeStringChar (c : Char) : List Char :=
  if c == '"' then ['\\', '"']
  else if c == '\\' then ['\\', '\\']
  else if c == '\n' then ['\\', 'n']
  else if c == '\r' then ['\\', 'r']
  else if c == '\t' then ['\\', 't']
  else [c]

def escapeStringChars : List Char → List Char
  | [] => []
  | c :: cs => escapeStringChar c ++ escapeStringChars cs

mutual

/-- Modelled from the spec (§4.4 value argument types): synthesize a fresh CST
subtree from a host value: null/boolean/number literals keep canonical text, a
host string becomes a double-quoted literal with canonical escaping, sequences
become arrays and mappings become objects (order preserved, single-line
formatting with `", "` and `": "` separators). -/
def synthValue : JsonValue → JsonNode
  | .null => .leaf ⟨.nullKeyword, nullChars⟩
  | .bool b => .leaf ⟨.booleanLit, if b then trueChars else falseChars⟩
  | .num s => .leaf ⟨.numberLit, s⟩
  | .str s => .leaf ⟨.stringLit, '"' :: (escapeStringChars s ++ ['"'])⟩
  | .arr vs => .array (.leaf lbracketTok :: (synthElems vs ++ [.leaf rbracketTok]))
  | .obj ps => .object (.leaf lbraceTok :: (synthProps ps ++ [.leaf rbraceTok]))

def synthElems : List JsonValue → List JsonNode
  | [] => []
  | [v] => [synthValue v]
  | v :: v2 :: vs =>
    synthValue v :: .leaf commaTok :: .leaf spaceTok :: synthElems (v2 :: vs)

def synthProps : List (List Char × JsonValue) → List JsonNode
  | [] => []
  | [kv] => [synthProp kv]
  | kv :: kv2 :: ps =>
    synthProp kv :: .leaf commaTok :: .leaf spaceTok :: synthProps (kv2 :: ps)

def synthProp : List Char × JsonValue → JsonNode
  | (k, v) =>
    .prop [.leaf ⟨.stringLit, '"' :: (escapeStringChars k ++ ['"'])⟩,
      .leaf ⟨.colon, [':']⟩, .leaf spaceTok, synthValue v]

end

def newlineTok : Token := ⟨.newline, ['\n']⟩

def indentTok : Token := ⟨.whitespace, [' ', ' ']⟩

/-- Modelled from the spec (§4.4 comma discipline on insert, append case):
append a value to an array's children: insert before the closing bracket; when
a significant child already exists and no comma follows it yet, insert one
first; separator trivia follows the container's single-line or multiline
style. -/
def arrayAppendChildren (cs : List JsonNode) (v : JsonValue) : List JsonNode :=
  match cs.getLast? with
  | none => [synthValue v]
  | some last =>
    let front := cs.dropLast
    let comma : List JsonNode :=
      if containsSignificant front && !hasTrailingCommaChildren front then
        [.leaf commaTok]
      else []
    let spacing : List JsonNode :=
      if !containsSignificant front then []
      else if isMultilineChildren cs then [.leaf newlineTok, .leaf indentTok]
      else [.leaf spaceTok]
    front ++ (comma ++ spacing ++ [synthValue v, last])

/-- Repeated `append`, in order. -/
def arrayAppendAll (cs : List JsonNode) (vs : List JsonValue) : List JsonNode :=
  vs.foldl arrayAppendChildren cs

theorem elementsOf_eq_filter : ∀ (cs : List JsonNode),
    elementsOf cs = cs.filter isSignificantValue := by
  intro cs
  induction cs with
  | nil => rfl
  | cons n ns ih =>
    rw [elementsOf.eq_def]
    dsimp only
    by_cases h : isSignificantValue n = true
    · rw [h]
      simp [List.filter_cons, h, ih]
    · have hf : isSignificantValue n = false := by
        cases hx : isSignificantValue n
        · rfl
        · exact absurd hx h
      rw [hf]
      simp [List.filter_cons, hf, ih]

theorem synthValue_significant : ∀ (v : JsonValue),
    isSignificantValue (synthValue v) = true := by
  intro v
  cases v <;> rfl

theorem elementsOf_append : ∀ (a b : List JsonNode),
    elementsOf (a ++ b) = elementsOf a ++ elementsOf b := by
  intro a b
  simp [elementsOf_eq_filter, List.filter_append]

theorem arrayAppendChildren_elements (cs : List JsonNode) (v : JsonValue)
    (last : JsonNode) (hlast : cs.getLast? = some last)
    (hsig : isSignificantValue last = false) :
    elementsOf (arrayAppendChildren cs v) = elementsOf cs ++ [synthValue v] := by
  rcases List.eq_nil_or_concat cs with rfl | ⟨front, last2, rfl⟩
  · simp at hlast
  · simp only [List.concat_eq_append] at hlast ⊢
    rw [List.getLast?_concat] at hlast
    injection hlast with hl
    subst hl
    rw [arrayAppendChildren.eq_def]
    rw [List.getLast?_concat]
    dsimp only
    rw [List.dropLast_concat]
    rw [elementsOf_append, elementsOf_append, elementsOf_append, elementsOf_append]
    have h1 : elementsOf (if (containsSignificant front &&
        !hasTrailingCommaChildren front) = true then [JsonNode.leaf commaTok]
        else []) = [] := by
      split <;> rfl
    have h2 : elementsOf (if (!containsSignificant front) = true then []
        else if isMultilineChildren (front ++ [last2]) = true then
          [JsonNode.leaf newlineTok, .leaf indentTok]
        else [JsonNode.leaf spaceTok]) = [] := by
      split
      · rfl
      · split <;> rfl
    rw [h1, h2]
    have h3 : elementsOf [synthValue v, last2] = [synthValue v] := by
      rw [elementsOf.eq_def]
      dsimp only
      rw [synthValue_significant v]
      simp only [if_true]
      rw [elementsOf.eq_def]
      dsimp only
      rw [hsig]
      simp [elementsOf]
    have h4 : elementsOf [last2] = [] := by
      rw [elementsOf.eq_def]
      dsimp only
      rw [hsig]
      simp [elementsOf]
    rw [h3, h4]
    simp

theorem arrayAppendChildren_getLast (cs : List JsonNode) (v : JsonValue)
    (last : JsonNode) (hlast : cs.getLast? = some last) :
    (arrayAppendChildren cs v).getLast? = some last := by
  rcases List.eq_nil_or_concat cs with rfl | ⟨front, last2, rfl⟩
  · simp at hlast
  · simp only [List.concat_eq_append] at hlast ⊢
    rw [List.getLast?_concat] at hlast
    injection hlast with hl
    subst hl
    rw [arrayAppendChildren.eq_def]
    rw [List.getLast?_concat]
    dsimp only
    rw [List.dropLast_concat]
    have hgen : ∀ (a b : List JsonNode),
        (a ++ (b ++ [synthValue v, last2])).getLast? = some last2 := by
      intro a b
      have hshape : a ++ (b ++ [synthValue v, last2]) =
          (a ++ (b ++ [synthValue v])) ++ [last2] := by
        simp
      rw [hshape, List.getLast?_concat]
    exact hgen front _

theorem arrayAppendAll_elements : ∀ (vs : List JsonValue) (cs : List JsonNode)
    (last : JsonNode), cs.getLast? = some last → isSignificantValue last = false →
    elementsOf (arrayAppendAll cs vs) = elementsOf cs ++ vs.map synthValue := by
  intro vs
  induction vs with
  | nil => intro cs last _ _; simp [arrayAppendAll]
  | cons v vs ih =>
    intro cs last hlast hsig
    show elementsOf (arrayAppendAll (arrayAppendChildren cs v) vs) = _
    rw [ih (arrayAppendChildren cs v) last
      (arrayAppendChildren_getLast cs v last hlast) hsig]
    rw [arrayAppendChildren_elements cs v last hlast hsig]
    simp

def emptyArrayInput : List Char := String.toList ("[]")

/-- The children of the array parsed from `"[]"`. -/
def emptyArrayChildren : List JsonNode := [.leaf lbracketTok, .leaf rbracketTok]

/-- C9: `elements()` is exactly the ordered sequence of significant value
children (trivia and commas skipped), and after appending `n` host values to
the array parsed from `"[]"` the elements are exactly the `n` synthesized
values in append order. -/
theorem elements_append_spec :
    (∀ cs : List JsonNode, elementsOf cs = cs.filter isSignificantValue) ∧
    parse emptyArrayInput allTrueOptions = .ok ⟨[.array emptyArrayChildren]⟩ ∧
    (∀ vs : List JsonValue,
      elementsOf (arrayAppendAll emptyArrayChildren vs) = vs.map synthValue) ∧
    (∀ vs : List JsonValue,
      (elementsOf (arrayAppendAll emptyArrayChildren vs)).length = vs.length) := by
  refine ⟨elementsOf_eq_filter, rfl, ?_, ?_⟩
  · intro vs
    have h := arrayAppendAll_elements vs emptyArrayChildren (.leaf rbracketTok) rfl rfl
    simpa using h
  · intro vs
    have h := arrayAppendAll_elements vs emptyArrayChildren (.leaf rbracketTok) rfl rfl
    have h0 : elementsOf emptyArrayChildren = [] := rfl
    simp [h, h0]

/-- Witness for C9: three appends to the parsed `"[]"` yield exactly those
three elements in order. -/
theorem elements_append_spec_witness :
    elementsOf (arrayAppendAll emptyArrayChildren
        [JsonValue.num ['1'], JsonValue.bool true, JsonValue.null]) =
      [synthValue (JsonValue.num ['1']), synthValue (JsonValue.bool true),
        synthValue JsonValue.null] :=
  elements_append_spec.2.2.1 [JsonValue.num ['1'], JsonValue.bool true, JsonValue.null]

-- C6: quiet / throwing accessor pairing ------------------------------------

/-- Modelled from the spec (§3): a property child of an object. -/
def isPropNode : JsonNode → Bool
  | .prop _ => true
  | _ => false

/-- Modelled from the spec (§3): `properties()` on an object: the ordered
sequence of property children. -/
def propertiesOf (cs : List JsonNode) : List JsonNode := cs.filter isPropNode

/-- Modelled from the spec (§3): the decoded key of a property node, when the
property has a name. -/
def propDecodedName : JsonNode → Option (List Char)
  | .prop cs => (propNameToken cs).map tokenDecodedValue
  | _ => none

def propHasName (key : List Char) (n : JsonNode) : Bool :=
  propDecodedName n == some key

/-- Modelled from the spec (§6): the quiet `get(key)` on an object: the first
property whose decoded name equals the key, or the absence sentinel. -/
def objectGet (cs : List JsonNode) (key : List Char) : Option JsonNode :=
  (propertiesOf cs).find? (propHasName key)

def msgPropertyNotFoundPre : List Char := String.toList ("Property not found: ")

/-- Modelled from the spec (§6): lift a quiet accessor to its throwing
variant: absence becomes a `TypeError` carrying the given message. -/
def orThrow {α : Type} (msg : List Char) : Option α → Except JsoncError α
  | some a => .ok a
  | none => .error (.typeError msg)

/-- Modelled from the spec (§6): `getOrThrow(key)` on an object: the
property, or a `TypeError` whose message names the missing property. -/
def objectGetOrThrow (cs : List JsonNode) (key : List Char) : Except JsoncError JsonNode :=
  orThrow (msgPropertyNotFoundPre ++ key) (objectGet cs key)

/-- Modelled from the spec (§6): quiet `asObject()`: the node itself when it
is an object, the absence sentinel otherwise. -/
def asObject (n : JsonNode) : Option JsonNode :=
  if isObjectNode n then some n else none

/-- Modelled from the spec (§6): quiet `asArray()`. -/
def asArray (n : JsonNode) : Option JsonNode :=
  if isArrayNode n then some n else none

/-- Modelled from the spec (§6): quiet `asString()`: the decoded value of a
string literal node. -/
def asString (n : JsonNode) : Option (List Char) :=
  match n with
  | .leaf t => if t.kind == .stringLit then some (decodedStringValue t.text) else none
  | _ => none

/-- Modelled from the spec (§6): quiet `asBoolean()`. -/
def asBoolean (n : JsonNode) : Option Bool :=
  match n with
  | .leaf t => if t.kind == .booleanLit then some (t.text == String.toList ("true")) else none
  | _ => none

/-- Modelled from the spec (§3): `numberValue()`: the number literal's exact
source text. -/
def numberValue (n : JsonNode) : Option (List Char) :=
  match n with
  | .leaf t => if t.kind == .numberLit then some t.text else none
  | _ => none

def msgExpectedObject : List Char := String.toList ("node is not an object")

def msgExpectedArray : List Char := String.toList ("node is not an array")

def msgExpectedString : List Char := String.toList ("node is not a string")

def msgExpectedBoolean : List Char := String.toList ("node is not a boolean")

def msgExpectedNumber : List Char := String.toList ("node is not a number")

/-- Modelled from the spec (§6): `asObjectOrThrow()`. -/
def asObjectOrThrow (n : JsonNode) : Except JsoncError JsonNode :=
  orThrow msgExpectedObject (asObject n)

/-- Modelled from the spec (§6): `asArrayOrThrow()`. -/
def asArrayOrThrow (n : JsonNode) : Except JsoncError JsonNode :=
  orThrow msgExpectedArray (asArray n)

/-- Modelled from the spec (§6): `asStringOrThrow()`. -/
def asStringOrThrow (n : JsonNode) : Except JsoncError (List Char) :=
  orThrow msgExpectedString (asString n)

/-- Modelled from the spec (§6): `asBooleanOrThrow()`. -/
def asBooleanOrThrow (n : JsonNode) : Except JsoncError Bool :=
  orThrow msgExpectedBoolean (asBoolean n)

/-- Modelled from the spec (§6): `numberValueOrThrow()`. -/
def numberValueOrThrow (n : JsonNode) : Except JsoncError (List Char) :=
  orThrow msgExpectedNumber (numberValue n)

/-- Modelled from the spec (§6, as exercised by the tests): `get` reached
from the root: the root value viewed as an object, then the keyed lookup. -/
def rootObjectGet (r : RootNode) (key : List Char) : Option JsonNode :=
  match rootValue r with
  | some (.object cs) => objectGet cs key
  | _ => none

/-- Modelled from the spec (§6): the throwing variant of the rooted lookup. -/
def rootObjectGetOrThrow (r : RootNode) (key : List Char) : Except JsoncError JsonNode :=
  match rootValue r with
  | some (.object cs) => objectGetOrThrow cs key
  | _ => .error (.typeError msgExpectedObject)

def inputNameTest : List Char := String.toList ("\x7b\"name\": \"test\"\x7d")

def keyName : List Char := String.toList ("name")

def keyNonexistent : List Char := String.toList ("nonexistent")

theorem orThrow_none_iff {α : Type} (msg : List Char) (o : Option α) :
    o = none ↔ orThrow msg o = .error (.typeError msg) := by
  cases o <;> simp [orThrow]

theorem orThrow_some_iff {α : Type} (msg : List Char) (o : Option α) (a : α) :
    o = some a ↔ orThrow msg o = .ok a := by
  cases o <;> simp [orThrow]

-- C5: parent coherence ------------------------------------------------------

/-- Modelled from the spec (§3): `children` of a container node; a leaf has
none. -/
def childrenOf : JsonNode → List JsonNode
  | .object cs => cs
  | .array cs => cs
  | .prop cs => cs
  | .leaf _ => []

/-- Modelled from the spec (§3 invariant 2): the descendant reached from a
node by a path of child indices; `parent` and `childIndex` are the derived
views of this addressing (the node at `p ++ [i]` has parent at `p` and
childIndex `i`). -/
def descendantAt : JsonNode → List Nat → Option JsonNode
  | n, [] => some n
  | n, i :: p =>
    match (childrenOf n)[i]? with
    | some c => descendantAt c p
    | none => none

/-- Modelled from the spec (§3): the node of a document at a path of child
indices from the root. -/
def RootNode.nodeAt (r : RootNode) : List Nat → Option JsonNode
  | [] => none
  | i :: p =>
    match r.children[i]? with
    | some c => descendantAt c p
    | none => none

theorem descendantAt_append (p : List Nat) :
    ∀ (n m : JsonNode) (i : Nat),
      descendantAt n (p ++ [i]) = some m ↔
        ∃ par, descendantAt n p = some par ∧ (childrenOf par)[i]? = some m := by
  induction p with
  | nil =>
    intro n m i
    simp only [List.nil_append, descendantAt]
    cases hc : (childrenOf n)[i]? with
    | none =>
      constructor
      · intro h; exact absurd h (by simp)
      · rintro ⟨par, hp, hm⟩
        injection hp with hp
        subst hp
        rw [hc] at hm
        exact absurd hm (by simp)
    | some c =>
      constructor
      · intro h
        refine ⟨n, rfl, ?_⟩
        simp only [descendantAt] at h
        exact hc.trans h
      · rintro ⟨par, hp, hm⟩
        injection hp with hp
        subst hp
        rw [hc] at hm
        injection hm with hm
        subst hm
        simp [descendantAt]
  | cons j p ih =>
    intro n m i
    simp only [List.cons_append, descendantAt]
    cases hc : (childrenOf n)[j]? with
    | none => simp
    | some c => exact ih c m i

-- Claim theorems -------------------------------------------------------------

/-- C6: quiet accessors return absence sentinels, throwing accessors raise a
TypeError instead: for object key lookup the quiet `get` returns none exactly
when `getOrThrow` raises a TypeError whose message contains the missing key,
and returns a property exactly when `getOrThrow` returns it; the same pairing
holds for `asObject` / `asArray` / `asString` / `asBoolean` / `numberValue`
and their `OrThrow` variants, whose messages name the expected kind; on the
parsed document of the repository test, `get "nonexistent"` is the sentinel,
`getOrThrow "nonexistent"` raises naming the key, and `get "name"` finds the
property whose decoded name is the key. -/
theorem accessor_quiet_throwing_pairing :
    (∀ (cs : List JsonNode) (key : List Char),
      objectGet cs key = none ↔
        objectGetOrThrow cs key = .error (.typeError (msgPropertyNotFoundPre ++ key))) ∧
    (∀ (cs : List JsonNode) (key : List Char) (pr : JsonNode),
      objectGet cs key = some pr ↔ objectGetOrThrow cs key = .ok pr) ∧
    (∀ key : List Char, ∃ l r, msgPropertyNotFoundPre ++ key = l ++ key ++ r) ∧
    (∀ n : JsonNode,
      (asObject n = none ↔ asObjectOrThrow n = .error (.typeError msgExpectedObject)) ∧
      (∀ v, asObject n = some v ↔ asObjectOrThrow n = .ok v)) ∧
    (∀ n : JsonNode,
      (asArray n = none ↔ asArrayOrThrow n = .error (.typeError msgExpectedArray)) ∧
      (∀ v, asArray n = some v ↔ asArrayOrThrow n = .ok v)) ∧
    (∀ n : JsonNode,
      (asString n = none ↔ asStringOrThrow n = .error (.typeError msgExpectedString)) ∧
      (∀ v, asString n = some v ↔ asStringOrThrow n = .ok v)) ∧
    (∀ n : JsonNode,
      (asBoolean n = none ↔ asBooleanOrThrow n = .error (.typeError msgExpectedBoolean)) ∧
      (∀ v, asBoolean n = some v ↔ asBooleanOrThrow n = .ok v)) ∧
    (∀ n : JsonNode,
      (numberValue n = none ↔ numberValueOrThrow n = .error (.typeError msgExpectedNumber)) ∧
      (∀ v, numberValue n = some v ↔ numberValueOrThrow n = .ok v)) ∧
    (∃ l r, msgExpectedObject = l ++ String.toList ("object") ++ r) ∧
    (∃ l r, msgExpectedArray = l ++ String.toList ("array") ++ r) ∧
    (∃ l r, msgExpectedString = l ++ String.toList ("string") ++ r) ∧
    (∃ l r, msgExpectedBoolean = l ++ String.toList ("boolean") ++ r) ∧
    (∃ l r, msgExpectedNumber = l ++ String.toList ("number") ++ r) ∧
    (parse inputNameTest allTrueOptions).map
      (fun r => rootObjectGet r keyNonexistent) = .ok none ∧
    (parse inputNameTest allTrueOptions).map
      (fun r => rootObjectGetOrThrow r keyNonexistent) =
      .ok (.error (.typeError (msgPropertyNotFoundPre ++ keyNonexistent))) ∧
    (parse inputNameTest allTrueOptions).map
      (fun r => (rootObjectGet r keyName).bind propDecodedName) = .ok (some keyName) := by
  refine ⟨?_, ?_, ?_, ?_, ?_, ?_, ?_, ?_, ?_, ?_, ?_, ?_, ?_, ?_, ?_, ?_⟩
  · intro cs key
    unfold objectGetOrThrow
    exact orThrow_none_iff _ _
  · intro cs key pr
    unfold objectGetOrThrow
    exact orThrow_some_iff _ _ _
  · intro key
    exact ⟨msgPropertyNotFoundPre, [], by simp⟩
  · intro n
    exact ⟨orThrow_none_iff _ _, fun v => orThrow_some_iff _ _ _⟩
  · intro n
    exact ⟨orThrow_none_iff _ _, fun v => orThrow_some_iff _ _ _⟩
  · intro n
    exact ⟨orThrow_none_iff _ _, fun v => orThrow_some_iff _ _ _⟩
  · intro n
    exact ⟨orThrow_none_iff _ _, fun v => orThrow_some_iff _ _ _⟩
  · intro n
    exact ⟨orThrow_none_iff _ _, fun v => orThrow_some_iff _ _ _⟩
  · exact ⟨String.toList ("node is not an "), [], by decide⟩
  · exact ⟨String.toList ("node is not an "), [], by decide⟩
  · exact ⟨String.toList ("node is not a "), [], by decide⟩
  · exact ⟨String.toList ("node is not a "), [], by decide⟩
  · exact ⟨String.toList ("node is not a "), [], by decide⟩
  · rfl
  · rfl
  · rfl

/-- C5: parent coherence: in every tree — hence in every parsed or mutated
document — the node reached at path `p ++ [i]` is exactly entry `i` of the
`children` of the node reached at path `p`; read as back-references, every
non-root node `n` satisfies `n.parent.children[n.childIndex] = n`, where the
nodes at singleton paths are the root's immediate children. -/
theorem parent_coherence :
    (∀ (n : JsonNode) (p : List Nat) (i : Nat) (m : JsonNode),
      descendantAt n (p ++ [i]) = some m ↔
        ∃ par, descendantAt n p = some par ∧ (childrenOf par)[i]? = some m) ∧
    (∀ (r : RootNode) (p : List Nat) (i : Nat) (m : JsonNode),
      RootNode.nodeAt r (p ++ [i]) = some m ↔
        ((p = [] ∧ r.children[i]? = some m) ∨
         ∃ par, RootNode.nodeAt r p = some par ∧ (childrenOf par)[i]? = some m)) := by
  constructor
  · intro n p i m
    exact descendantAt_append p n m i
  · intro r p i m
    cases p with
    | nil =>
      constructor
      · intro h
        simp only [List.nil_append, RootNode.nodeAt] at h
        cases hc : r.children[i]? with
        | none => rw [hc] at h; exact absurd h (by simp)
        | some c =>
          rw [hc] at h
          simp only [descendantAt] at h
          exact Or.inl ⟨rfl, h⟩
      · rintro (⟨-, hm⟩ | ⟨par, hp, hm⟩)
        · simp [RootNode.nodeAt, hm, descendantAt]
        · simp [RootNode.nodeAt] at hp
    | cons j p =>
      simp only [List.cons_append, RootNode.nodeAt]
      cases hc : r.children[j]? with
      | none => simp
      | some c =>
        constructor
        · intro h
          rcases (descendantAt_append p c m i).mp h with ⟨par, hp, hm⟩
          exact Or.inr ⟨par, hp, hm⟩
        · rintro (⟨hnil, -⟩ | ⟨par, hp, hm⟩)
          · cases hnil
          · exact (descendantAt_append p c m i).mpr ⟨par, hp, hm⟩

end JsoncMorph
